import Mathlib

set_option linter.unusedSectionVars false

/-!
Verification of the LRU cache in `lru_cache.go` (repository mobinln/LRUCache).

The Go code is a pointer-based doubly linked list with head/tail sentinel
nodes, plus a map from keys to node pointers.  We embed it shallowly:

* a pointer is `Option Nat` (`none` is Go's `nil`, `some i` points to the
  node with identifier `i`);
* the mutable store of allocated nodes is an association list
  `List (Nat × Node K V)`; reading or writing through a pointer looks the
  identifier up there, and reading or writing through `nil` is a runtime
  fault, modelled by returning `none` from the operation (`Option`-valued
  operations);
* the Go map `map[K]*Node[K,V]` is an association list `List (K × Nat)`
  with Go map semantics (lookup, overwriting insert, delete, `len`);
* every statement of the Go functions is translated in order, re-reading
  the heap exactly where the Go code re-reads a pointer field.
-/

namespace LRUGo

/-- One linked-list node, mirroring `type Node[K, V]` in the source: a key,
a value and `prev`/`next` pointers (`nil` is `none`). -/
structure Node (K V : Type) where
  key : K
  value : V
  prev : Option Nat
  next : Option Nat
deriving DecidableEq, Repr

/-- Lookup in an association list (first match); this models both reading
a pointer out of the heap and the Go map read `lru.cache[key]`. -/
def alookup {κ α : Type} [DecidableEq κ] : List (κ × α) → κ → Option α
  | [], _ => none
  | (j, a) :: t, i => if j = i then some a else alookup t i

/-- Overwrite the entry stored at key `i` by applying `f` to it; this
models a field assignment through a pointer to node `i`. -/
def amod {κ α : Type} [DecidableEq κ] : List (κ × α) → κ → (α → α) → List (κ × α)
  | [], _, _ => []
  | (j, a) :: t, i, f =>
      if j = i then (j, f a) :: amod t i f else (j, a) :: amod t i f

/-- Go map assignment `lru.cache[key] = node`: overwrite the entry if the
key is present, otherwise append a new one. -/
def ainsert {κ α : Type} [DecidableEq κ] : List (κ × α) → κ → α → List (κ × α)
  | [], k, v => [(k, v)]
  | (a, b) :: t, k, v => if a = k then (k, v) :: t else (a, b) :: ainsert t k v

/-- Go `delete(lru.cache, key)`: remove every entry with the given key. -/
def adelete {κ α : Type} [DecidableEq κ] : List (κ × α) → κ → List (κ × α)
  | [], _ => []
  | (a, b) :: t, k => if a = k then adelete t k else (a, b) :: adelete t k

/-- The store of allocated nodes, addressed by identifier. -/
abbrev Heap (K V : Type) := List (Nat × Node K V)

/-- Write through a pointer: a fault (`none`) when the pointer is `nil` or
dangling, otherwise the updated heap. -/
def writeN {K V : Type} (h : Heap K V) (p : Option Nat)
    (f : Node K V → Node K V) : Option (Heap K V) :=
  match p with
  | none => none
  | some i => if (alookup h i).isSome then some (amod h i f) else none

/-- The `prev`-field assignment performed by the Go code. -/
def wPrev {K V : Type} (v : Option Nat) (n : Node K V) : Node K V :=
  { n with prev := v }

/-- The `next`-field assignment performed by the Go code. -/
def wNext {K V : Type} (v : Option Nat) (n : Node K V) : Node K V :=
  { n with next := v }

/-- The `value`-field assignment (the `node.value = value` line of `Put`). -/
def wValue {K V : Type} (v : V) (n : Node K V) : Node K V :=
  { n with value := v }

/-- The cache state `LRUCache[K, V]` of the source, plus the allocator
state of the embedding: the heap of every node allocated so far and the
next unused identifier. -/
structure LRUCache (K V : Type) where
  capacity : Int
  cache : List (K × Nat)
  head : Nat
  tail : Nat
  heap : Heap K V
  fresh : Nat
deriving DecidableEq, Repr

variable {K V : Type} [DecidableEq K] [Inhabited K] [Inhabited V]

instance : Inhabited (Node K V) := ⟨⟨default, default, none, none⟩⟩

/-- The node a valid identifier designates (`default` off the heap; only
used where validity is known or irrelevant). -/
def nodeAt (h : Heap K V) (i : Nat) : Node K V :=
  (alookup h i).getD default

/-- Go `Constructor(capacity)`: two fresh sentinel zero-nodes, linked
`head.next = tail`, `tail.prev = head`, with an empty map.  The embedding
gives the sentinels the identifiers 0 and 1. -/
def Constructor (capacity : Int) : LRUCache K V where
  capacity := capacity
  cache := []
  head := 0
  tail := 1
  heap := [(0, ⟨default, default, none, some 1⟩),
           (1, ⟨default, default, some 0, none⟩)]
  fresh := 2

/-- Go `addNode(node)`: the four pointer writes, in source order, with
`lru.head.next` re-read from the current heap exactly where the source
reads it. -/
def addNode (lru : LRUCache K V) (node : Nat) : Option (LRUCache K V) := do
  let h1 ← writeN lru.heap (some node) (wPrev (some lru.head))
  let hd1 ← alookup h1 lru.head
  let h2 ← writeN h1 (some node) (wNext hd1.next)
  let hd2 ← alookup h2 lru.head
  let h3 ← writeN h2 hd2.next (wPrev (some node))
  let h4 ← writeN h3 (some lru.head) (wNext (some node))
  pure { lru with heap := h4 }

/-- Go `removeNode(node)`: read `node.prev` and `node.next`, then write
`prevNode.next = nextNode` and `nextNode.prev = prevNode`.  The argument is
the raw pointer, so a `nil` argument faults on the first field read. -/
def removeNode (lru : LRUCache K V) (node : Option Nat) :
    Option (LRUCache K V) := do
  let n ← node.bind (alookup lru.heap)
  let h1 ← writeN lru.heap n.prev (wNext n.next)
  let h2 ← writeN h1 n.next (wPrev n.prev)
  pure { lru with heap := h2 }

/-- Go `moveToHead(node)`: `removeNode` then `addNode`. -/
def moveToHead (lru : LRUCache K V) (node : Nat) : Option (LRUCache K V) := do
  let l1 ← removeNode lru (some node)
  addNode l1 node

/-- Go `popTail()`: read `lru.tail.prev` and remove that node, returning
it (as its identifier). -/
def popTail (lru : LRUCache K V) : Option (LRUCache K V × Nat) := do
  let t ← alookup lru.heap lru.tail
  let l1 ← removeNode lru t.prev
  let i ← t.prev
  pure (l1, i)

/-- Go `Get(key)`: map lookup; on a miss return the zero value and
`false` without touching the state; on a hit move the node to the head and
return its value (re-read after the move, as the source does) and `true`. -/
def Get (lru : LRUCache K V) (key : K) :
    Option ((V × Bool) × LRUCache K V) :=
  match alookup lru.cache key with
  | none => some ((default, false), lru)
  | some node => do
      let l1 ← moveToHead lru node
      let n ← alookup l1.heap node
      pure ((n.value, true), l1)

/-- Go `Put(key, value)`.  On a hit: overwrite the value through the node
pointer and move the node to the head.  On a miss: allocate the new node,
then if `len(lru.cache) >= lru.capacity` pop the tail node and delete its
key from the map, and finally insert the new node into the map and the
list. -/
def Put (lru : LRUCache K V) (key : K) (value : V) :
    Option (LRUCache K V) :=
  match alookup lru.cache key with
  | some node => do
      let h1 ← writeN lru.heap (some node) (wValue value)
      moveToHead { lru with heap := h1 } node
  | none => do
      let newNode := lru.fresh
      let lru1 : LRUCache K V :=
        { lru with heap := lru.heap ++ [(newNode, ⟨key, value, none, none⟩)],
                   fresh := newNode + 1 }
      let lru2 ←
        if lru1.capacity ≤ (lru1.cache.length : Int) then do
          let tl ← popTail lru1
          let tn ← alookup tl.1.heap tl.2
          pure { tl.1 with cache := adelete tl.1.cache tn.key }
        else pure lru1
      let lru3 := { lru2 with cache := ainsert lru2.cache key newNode }
      addNode lru3 newNode

/-- One step of the Go `Display` loop: stop at the tail sentinel, emit the
current node's key and value and follow its `next` pointer.  The fuel
argument makes the source's `for` loop structurally recursive; with fuel
larger than the heap it never runs out on a well-formed state. -/
def traverseFrom (h : Heap K V) (tl : Nat) : Nat → Option Nat → List (K × V)
  | 0, _ => []
  | _ + 1, none => []
  | fuel + 1, some i =>
      if i = tl then []
      else
        match alookup h i with
        | none => []
        | some n => (n.key, n.value) :: traverseFrom h tl fuel n.next

/-- The front-to-back traversal of the ordering structure, exactly the
sequence the Go `Display` loop prints: start at `lru.head.next`, stop at
`lru.tail`. -/
def traversal (lru : LRUCache K V) : List (K × V) :=
  traverseFrom lru.heap lru.tail (lru.heap.length + 1)
    (nodeAt lru.heap lru.head).next

/-- The value currently stored for a key: the map entry's node's value. -/
def valueOf (lru : LRUCache K V) (k : K) : Option V :=
  (alookup lru.cache k).map fun i => (nodeAt lru.heap i).value

/-- A public operation of the cache. -/
inductive Op (K V : Type) where
  | get (k : K)
  | put (k : K) (v : V)
deriving DecidableEq, Repr

/-- Execute one public operation (the result a caller keeps is the state). -/
def step (lru : LRUCache K V) : Op K V → Option (LRUCache K V)
  | .get k => (Get lru k).map Prod.snd
  | .put k v => Put lru k v

/-- Execute a sequence of public operations. -/
def run (lru : LRUCache K V) : List (Op K V) → Option (LRUCache K V)
  | [] => some lru
  | op :: ops => (step lru op).bind fun l => run l ops

/-! ### Association-list lemmas -/

section AssocLemmas

variable {κ α : Type} [DecidableEq κ]

theorem alookup_amod (h : List (κ × α)) (i : κ) (f : α → α) (j : κ) :
    alookup (amod h i f) j = if i = j then (alookup h j).map f else alookup h j := by
  induction h with
  | nil => simp [amod, alookup]
  | cons p t ih =>
    obtain ⟨a, n⟩ := p
    by_cases hai : a = i
    · subst hai
      by_cases haj : a = j
      · subst haj
        simp [amod, alookup, ih]
      · simp [amod, alookup, haj, ih]
    · by_cases haj : a = j
      · subst haj
        simp [amod, alookup, hai, Ne.symm hai, ih]
      · simp [amod, alookup, hai, haj, ih]

theorem alookup_amod_isSome (h : List (κ × α)) (i : κ) (f : α → α) (j : κ) :
    (alookup (amod h i f) j).isSome = (alookup h j).isSome := by
  rw [alookup_amod]
  split <;> simp

theorem alookup_append_of_isSome {h : List (κ × α)} {j : κ} (t : List (κ × α))
    (hs : (alookup h j).isSome) : alookup (h ++ t) j = alookup h j := by
  induction h with
  | nil => simp [alookup] at hs
  | cons p r ih =>
    obtain ⟨a, n⟩ := p
    by_cases haj : a = j
    · simp [alookup, haj]
    · simp only [alookup, haj, if_false, List.cons_append] at *
      exact ih hs

theorem alookup_append_of_none {h : List (κ × α)} {j : κ}
    (t : List (κ × α)) (hs : alookup h j = none) :
    alookup (h ++ t) j = alookup t j := by
  induction h with
  | nil => rfl
  | cons p r ih =>
    obtain ⟨a, n⟩ := p
    by_cases haj : a = j
    · simp [alookup, haj] at hs
    · simp only [alookup, haj, if_false, List.cons_append] at *
      exact ih hs

theorem mem_of_alookup_eq_some {h : List (κ × α)} {j : κ} {x : α}
    (hs : alookup h j = some x) : (j, x) ∈ h := by
  induction h with
  | nil => simp [alookup] at hs
  | cons p r ih =>
    obtain ⟨a, n⟩ := p
    by_cases haj : a = j
    · subst haj
      simp [alookup] at hs
      simp [hs]
    · simp only [alookup, haj, if_false] at hs
      exact List.mem_cons_of_mem _ (ih hs)

theorem mem_keys_of_alookup_isSome {h : List (κ × α)} {j : κ}
    (hs : (alookup h j).isSome) : j ∈ h.map Prod.fst := by
  obtain ⟨x, hx⟩ := Option.isSome_iff_exists.mp hs
  exact List.mem_map.mpr ⟨(j, x), mem_of_alookup_eq_some hx, rfl⟩

theorem alookup_isSome_of_mem {h : List (κ × α)} {j : κ} {x : α}
    (hm : (j, x) ∈ h) : (alookup h j).isSome := by
  induction h with
  | nil => simp at hm
  | cons p r ih =>
    obtain ⟨a, n⟩ := p
    rcases List.mem_cons.mp hm with heq | hmem
    · cases heq
      simp [alookup]
    · by_cases haj : a = j
      · simp [alookup, haj]
      · simp only [alookup, haj, if_false]
        exact ih hmem

theorem alookup_eq_some_of_mem_nodup {h : List (κ × α)} {j : κ} {x : α}
    (hnd : (h.map Prod.fst).Nodup) (hm : (j, x) ∈ h) :
    alookup h j = some x := by
  induction h with
  | nil => simp at hm
  | cons p r ih =>
    obtain ⟨a, n⟩ := p
    simp only [List.map_cons, List.nodup_cons] at hnd
    rcases List.mem_cons.mp hm with heq | hmem
    · cases heq
      simp [alookup]
    · have haj : a ≠ j := by
        intro hcontra
        subst hcontra
        exact hnd.1 (List.mem_map.mpr ⟨(a, x), hmem, rfl⟩)
      simp only [alookup, haj, if_false]
      exact ih hnd.2 hmem

theorem alookup_eq_none_iff {h : List (κ × α)} {j : κ} :
    alookup h j = none ↔ ∀ p ∈ h, p.1 ≠ j := by
  constructor
  · intro hn p hp hcontra
    have := alookup_isSome_of_mem (h := h) (j := j) (x := p.2)
      (by cases p; cases hcontra; exact hp)
    rw [hn] at this
    simp at this
  · intro hall
    cases hs : alookup h j with
    | none => rfl
    | some x => exact absurd rfl (hall _ (mem_of_alookup_eq_some hs))

theorem ainsert_of_none {m : List (κ × α)} {k : κ}
    (hm : alookup m k = none) (v : α) : ainsert m k v = m ++ [(k, v)] := by
  induction m with
  | nil => rfl
  | cons p t ih =>
    obtain ⟨a, b⟩ := p
    by_cases hak : a = k
    · simp [alookup, hak] at hm
    · simp only [alookup, hak, if_false] at hm
      simp [ainsert, hak, ih hm]

theorem alookup_adelete_self (m : List (κ × α)) (k : κ) :
    alookup (adelete m k) k = none := by
  induction m with
  | nil => rfl
  | cons p t ih =>
    obtain ⟨a, b⟩ := p
    by_cases hak : a = k
    · simp [adelete, hak, ih]
    · simp [adelete, alookup, hak, ih]

theorem alookup_adelete_ne (m : List (κ × α)) {k k' : κ} (hkk : k' ≠ k) :
    alookup (adelete m k) k' = alookup m k' := by
  induction m with
  | nil => rfl
  | cons p t ih =>
    obtain ⟨a, b⟩ := p
    by_cases hak : a = k
    · subst hak
      simp [adelete, alookup, Ne.symm hkk, ih]
    · simp [adelete, alookup, hak, ih]

theorem mem_adelete {m : List (κ × α)} {k : κ} {p : κ × α} :
    p ∈ adelete m k ↔ p ∈ m ∧ p.1 ≠ k := by
  induction m with
  | nil => simp [adelete]
  | cons q t ih =>
    obtain ⟨a, b⟩ := q
    by_cases hak : a = k
    · subst hak
      have hstep : adelete ((a, b) :: t) a = adelete t a := by simp [adelete]
      rw [hstep, ih]
      constructor
      · rintro ⟨hp, hne⟩
        exact ⟨List.mem_cons_of_mem _ hp, hne⟩
      · rintro ⟨hor, hne⟩
        rcases List.mem_cons.mp hor with heq | hmem
        · exact absurd (by rw [heq]) hne
        · exact ⟨hmem, hne⟩
    · simp only [adelete, if_neg hak, List.mem_cons, ih]
      constructor
      · rintro (heq | ⟨hp, hne⟩)
        · exact ⟨Or.inl heq, by rw [heq]; exact hak⟩
        · exact ⟨Or.inr hp, hne⟩
      · rintro ⟨hor, hne⟩
        rcases hor with heq | hmem
        · exact Or.inl heq
        · exact Or.inr ⟨hmem, hne⟩

theorem adelete_of_forall_ne {m : List (κ × α)} {k : κ}
    (hall : ∀ q ∈ m, q.1 ≠ k) : adelete m k = m := by
  induction m with
  | nil => rfl
  | cons q t ih =>
    obtain ⟨a, b⟩ := q
    have hak : a ≠ k := hall (a, b) (List.mem_cons_self _ _)
    simp only [adelete, if_neg hak]
    rw [ih fun q hq => hall q (List.mem_cons_of_mem _ hq)]

theorem adelete_length {m : List (κ × α)} {k : κ} {x : α}
    (hnd : (m.map Prod.fst).Nodup) (hm : (k, x) ∈ m) :
    (adelete m k).length + 1 = m.length := by
  induction m with
  | nil => simp at hm
  | cons p t ih =>
    obtain ⟨a, b⟩ := p
    simp only [List.map_cons, List.nodup_cons] at hnd
    rcases List.mem_cons.mp hm with heq | hmem
    · cases heq
      have hall : ∀ q ∈ t, q.1 ≠ k := by
        intro q hq hcontra
        exact hnd.1 (List.mem_map.mpr ⟨q, hq, hcontra⟩)
      simp [adelete, adelete_of_forall_ne hall]
    · have hak : a ≠ k := by
        intro hcontra
        subst hcontra
        exact hnd.1 (List.mem_map.mpr ⟨(a, x), hmem, rfl⟩)
      simp only [adelete, if_neg hak, List.length_cons]
      rw [← ih hnd.2 hmem]

theorem keys_nodup_val_inj {m : List (κ × α)} {k : κ} {a b : α}
    (hnd : (m.map Prod.fst).Nodup) (h1 : (k, a) ∈ m) (h2 : (k, b) ∈ m) :
    a = b := by
  have ha := alookup_eq_some_of_mem_nodup hnd h1
  have hb := alookup_eq_some_of_mem_nodup hnd h2
  rw [ha] at hb
  exact (Option.some.injEq _ _).mp hb

end AssocLemmas

/-! ### Heap-level lemmas -/

theorem writeN_some (h : Heap K V) (i : Nat) (f : Node K V → Node K V)
    (hs : (alookup h i).isSome) : writeN h (some i) f = some (amod h i f) := by
  simp [writeN, hs]

theorem writeN_none (h : Heap K V) (f : Node K V → Node K V) :
    writeN h none f = none := rfl

theorem nodeAt_amod_ne {i j : Nat} (h : Heap K V) (f : Node K V → Node K V)
    (hij : i ≠ j) : nodeAt (amod h i f) j = nodeAt h j := by
  simp [nodeAt, alookup_amod, hij]

theorem nodeAt_amod_self {i : Nat} {h : Heap K V} (f : Node K V → Node K V)
    (hs : (alookup h i).isSome) : nodeAt (amod h i f) i = f (nodeAt h i) := by
  obtain ⟨n, hn⟩ := Option.isSome_iff_exists.mp hs
  simp [nodeAt, alookup_amod, hn]

theorem nodeAt_amod_prev_of {i : Nat} (h : Heap K V) (f : Node K V → Node K V)
    (hf : ∀ n, (f n).prev = n.prev) (j : Nat) :
    (nodeAt (amod h i f) j).prev = (nodeAt h j).prev := by
  rcases eq_or_ne i j with rfl | hij
  · cases hs : alookup h i with
    | none => simp [nodeAt, alookup_amod, hs]
    | some n => simp [nodeAt, alookup_amod, hs, hf]
  · rw [nodeAt_amod_ne h f hij]

theorem nodeAt_amod_next_of {i : Nat} (h : Heap K V) (f : Node K V → Node K V)
    (hf : ∀ n, (f n).next = n.next) (j : Nat) :
    (nodeAt (amod h i f) j).next = (nodeAt h j).next := by
  rcases eq_or_ne i j with rfl | hij
  · cases hs : alookup h i with
    | none => simp [nodeAt, alookup_amod, hs]
    | some n => simp [nodeAt, alookup_amod, hs, hf]
  · rw [nodeAt_amod_ne h f hij]

theorem nodeAt_amod_key_of {i : Nat} (h : Heap K V) (f : Node K V → Node K V)
    (hf : ∀ n, (f n).key = n.key) (j : Nat) :
    (nodeAt (amod h i f) j).key = (nodeAt h j).key := by
  rcases eq_or_ne i j with rfl | hij
  · cases hs : alookup h i with
    | none => simp [nodeAt, alookup_amod, hs]
    | some n => simp [nodeAt, alookup_amod, hs, hf]
  · rw [nodeAt_amod_ne h f hij]

theorem nodeAt_amod_value_of {i : Nat} (h : Heap K V) (f : Node K V → Node K V)
    (hf : ∀ n, (f n).value = n.value) (j : Nat) :
    (nodeAt (amod h i f) j).value = (nodeAt h j).value := by
  rcases eq_or_ne i j with rfl | hij
  · cases hs : alookup h i with
    | none => simp [nodeAt, alookup_amod, hs]
    | some n => simp [nodeAt, alookup_amod, hs, hf]
  · rw [nodeAt_amod_ne h f hij]

@[simp]
theorem nodeAt_wPrev_next (h : Heap K V) (i : Nat) (v : Option Nat) (j : Nat) :
    (nodeAt (amod h i (wPrev v)) j).next = (nodeAt h j).next :=
  nodeAt_amod_next_of h (wPrev v) (fun _ => rfl) j

@[simp]
theorem nodeAt_wPrev_key (h : Heap K V) (i : Nat) (v : Option Nat) (j : Nat) :
    (nodeAt (amod h i (wPrev v)) j).key = (nodeAt h j).key :=
  nodeAt_amod_key_of h (wPrev v) (fun _ => rfl) j

@[simp]
theorem nodeAt_wPrev_value (h : Heap K V) (i : Nat) (v : Option Nat) (j : Nat) :
    (nodeAt (amod h i (wPrev v)) j).value = (nodeAt h j).value :=
  nodeAt_amod_value_of h (wPrev v) (fun _ => rfl) j

@[simp]
theorem nodeAt_wNext_prev (h : Heap K V) (i : Nat) (v : Option Nat) (j : Nat) :
    (nodeAt (amod h i (wNext v)) j).prev = (nodeAt h j).prev :=
  nodeAt_amod_prev_of h (wNext v) (fun _ => rfl) j

@[simp]
theorem nodeAt_wNext_key (h : Heap K V) (i : Nat) (v : Option Nat) (j : Nat) :
    (nodeAt (amod h i (wNext v)) j).key = (nodeAt h j).key :=
  nodeAt_amod_key_of h (wNext v) (fun _ => rfl) j

@[simp]
theorem nodeAt_wNext_value (h : Heap K V) (i : Nat) (v : Option Nat) (j : Nat) :
    (nodeAt (amod h i (wNext v)) j).value = (nodeAt h j).value :=
  nodeAt_amod_value_of h (wNext v) (fun _ => rfl) j

@[simp]
theorem nodeAt_wValue_prev (h : Heap K V) (i : Nat) (v : V) (j : Nat) :
    (nodeAt (amod h i (wValue v)) j).prev = (nodeAt h j).prev :=
  nodeAt_amod_prev_of h (wValue v) (fun _ => rfl) j

@[simp]
theorem nodeAt_wValue_next (h : Heap K V) (i : Nat) (v : V) (j : Nat) :
    (nodeAt (amod h i (wValue v)) j).next = (nodeAt h j).next :=
  nodeAt_amod_next_of h (wValue v) (fun _ => rfl) j

@[simp]
theorem nodeAt_wValue_key (h : Heap K V) (i : Nat) (v : V) (j : Nat) :
    (nodeAt (amod h i (wValue v)) j).key = (nodeAt h j).key :=
  nodeAt_amod_key_of h (wValue v) (fun _ => rfl) j

theorem nodeAt_wNext_self {i : Nat} {h : Heap K V} (v : Option Nat)
    (hs : (alookup h i).isSome) :
    (nodeAt (amod h i (wNext v)) i).next = v := by
  rw [nodeAt_amod_self _ hs]
  rfl

theorem nodeAt_wPrev_self {i : Nat} {h : Heap K V} (v : Option Nat)
    (hs : (alookup h i).isSome) :
    (nodeAt (amod h i (wPrev v)) i).prev = v := by
  rw [nodeAt_amod_self _ hs]
  rfl

theorem nodeAt_wValue_self {i : Nat} {h : Heap K V} (v : V)
    (hs : (alookup h i).isSome) :
    (nodeAt (amod h i (wValue v)) i).value = v := by
  rw [nodeAt_amod_self _ hs]
  rfl

theorem wPrev_prev (v : Option Nat) (n : Node K V) : (wPrev v n).prev = v := rfl

theorem wNext_next (v : Option Nat) (n : Node K V) : (wNext v n).next = v := rfl

/-! ### The doubly linked segment predicate

`seg h p ids q` says: starting from node `p`, the identifiers `ids` are
threaded in order by the `next` pointers, ending at `q`, and the `prev`
pointers mirror them, i.e. the heap fragment looks like
`p ↔ ids₀ ↔ ids₁ ↔ ... ↔ q`. -/

def seg (h : Heap K V) : Nat → List Nat → Nat → Prop
  | p, [], q => (nodeAt h p).next = some q ∧ (nodeAt h q).prev = some p
  | p, i :: rest, q =>
      (nodeAt h p).next = some i ∧ (nodeAt h i).prev = some p ∧ seg h i rest q

theorem seg_congr {h h' : Heap K V} :
    ∀ (xs : List Nat) (p q : Nat),
      (∀ a ∈ p :: xs, (nodeAt h' a).next = (nodeAt h a).next) →
      (∀ a ∈ xs ++ [q], (nodeAt h' a).prev = (nodeAt h a).prev) →
      seg h p xs q → seg h' p xs q
  | [], p, q, hn, hp, hseg => by
      refine ⟨?_, ?_⟩
      · rw [hn p (List.mem_cons_self _ _)]
        exact hseg.1
      · rw [hp q (List.mem_singleton.mpr rfl)]
        exact hseg.2
  | i :: rest, p, q, hn, hp, hseg => by
      refine ⟨?_, ?_, ?_⟩
      · rw [hn p (List.mem_cons_self _ _)]
        exact hseg.1
      · rw [hp i (by simp)]
        exact hseg.2.1
      · exact seg_congr rest i q
          (fun a ha => hn a (List.mem_cons_of_mem _ ha))
          (fun a ha => hp a (by
            rcases List.mem_append.mp ha with hmem | hmem
            · exact List.mem_append.mpr (Or.inl (List.mem_cons_of_mem _ hmem))
            · exact List.mem_append.mpr (Or.inr hmem)))
          hseg.2.2

theorem seg_append {h : Heap K V} :
    ∀ (xs : List Nat) (p y : Nat) (ys : List Nat) (q : Nat),
      seg h p (xs ++ y :: ys) q ↔ seg h p xs y ∧ seg h y ys q
  | [], p, y, ys, q => by
      constructor
      · rintro ⟨h1, h2, h3⟩
        exact ⟨⟨h1, h2⟩, h3⟩
      · rintro ⟨⟨h1, h2⟩, h3⟩
        exact ⟨h1, h2, h3⟩
  | i :: rest, p, y, ys, q => by
      constructor
      · rintro ⟨h1, h2, h3⟩
        have := (seg_append rest i y ys q).mp h3
        exact ⟨⟨h1, h2, this.1⟩, this.2⟩
      · rintro ⟨⟨h1, h2, h3⟩, h4⟩
        exact ⟨h1, h2, (seg_append rest i y ys q).mpr ⟨h3, h4⟩⟩

/-- Removing a node from a doubly linked segment: if `i` sits between the
prefix `l1` and the suffix `l2`, then the two writes performed by Go's
`removeNode` (`prevNode.next = nextNode`; `nextNode.prev = prevNode`)
turn the segment over `l1 ++ i :: l2` into a segment over `l1 ++ l2`. -/
theorem seg_remove {h : Heap K V} (l1 : List Nat) :
    ∀ (p i : Nat) (l2 : List Nat) (q : Nat),
      seg h p (l1 ++ i :: l2) q →
      (p :: (l1 ++ i :: l2) ++ [q]).Nodup →
      (∀ a ∈ p :: (l1 ++ i :: l2) ++ [q], (alookup h a).isSome) →
      ∃ P Q, (nodeAt h i).prev = some P ∧ (nodeAt h i).next = some Q ∧
        P ∈ p :: l1 ∧ Q ∈ l2 ++ [q] ∧
        seg (amod (amod h P (wNext (some Q))) Q (wPrev (some P))) p (l1 ++ l2) q := by
  induction l1 with
  | nil =>
    intro p i l2 q hseg hnd hall
    simp only [List.nil_append] at hseg hnd hall ⊢
    obtain ⟨h1, h2, h3⟩ := hseg
    have hpnot : ∀ x ∈ (i :: l2) ++ [q], p ≠ x := by
      intro x hx hcontra
      subst hcontra
      exact (List.nodup_cons.mp hnd).1 hx
    have hndtail : ((i :: l2) ++ [q]).Nodup := (List.nodup_cons.mp hnd).2
    have hps : (alookup h p).isSome := hall p (List.mem_cons_self _ _)
    cases l2 with
    | nil =>
      obtain ⟨h4, h5⟩ := h3
      refine ⟨p, q, h2, h4, List.mem_cons_self _ _, List.mem_singleton.mpr rfl, ?_, ?_⟩
      · rw [nodeAt_wPrev_next]
        exact nodeAt_wNext_self _ hps
      · have hqs : (alookup (amod h p (wNext (some q))) q).isSome := by
          rw [alookup_amod_isSome]
          exact hall q (by simp)
        exact nodeAt_wPrev_self _ hqs
    | cons b l2' =>
      obtain ⟨h4, h5, h6⟩ := h3
      refine ⟨p, b, h2, h4, List.mem_cons_self _ _, by simp, ?_, ?_, ?_⟩
      · rw [nodeAt_wPrev_next]
        exact nodeAt_wNext_self _ hps
      · have hbs : (alookup (amod h p (wNext (some b))) b).isSome := by
          rw [alookup_amod_isSome]
          exact hall b (by simp)
        exact nodeAt_wPrev_self _ hbs
      · simp only [List.cons_append] at hndtail
        have hbnot : b ∉ l2' ++ [q] :=
          (List.nodup_cons.mp (List.nodup_cons.mp hndtail).2).1
        refine seg_congr l2' b q ?_ ?_ h6
        · intro x hx
          have hpx : p ≠ x := hpnot x
            (List.mem_append.mpr (Or.inl (List.mem_cons_of_mem _ hx)))
          rw [nodeAt_wPrev_next, nodeAt_amod_ne _ _ hpx]
        · intro x hx
          have hbx : b ≠ x := fun hcontra => hbnot (hcontra ▸ hx)
          rw [nodeAt_amod_ne _ _ hbx, nodeAt_wNext_prev]
  | cons a l1' ih =>
    intro p i l2 q hseg hnd hall
    simp only [List.cons_append] at hseg hnd hall ⊢
    obtain ⟨h1, h2, h3⟩ := hseg
    have hpnot : ∀ x ∈ (a :: (l1' ++ i :: l2)) ++ [q], p ≠ x := by
      intro x hx hcontra
      subst hcontra
      exact (List.nodup_cons.mp hnd).1 (by simpa using hx)
    have hndtail : ((a :: (l1' ++ i :: l2)) ++ [q]).Nodup := by
      have := (List.nodup_cons.mp hnd).2
      simpa using this
    have hanot : a ∉ (l1' ++ i :: l2) ++ [q] := by
      simp only [List.cons_append] at hndtail
      exact (List.nodup_cons.mp hndtail).1
    obtain ⟨P, Q, hP, hQ, hPm, hQm, hseg'⟩ :=
      ih a i l2 q h3 (by simpa using hndtail)
        (fun x hx => hall x (List.mem_cons_of_mem _ (by simpa using hx)))
    have hPmem : P ∈ (a :: (l1' ++ i :: l2)) ++ [q] := by
      rcases List.mem_cons.mp hPm with hPa | hPl
      · exact List.mem_append.mpr (Or.inl (hPa ▸ List.mem_cons_self _ _))
      · exact List.mem_append.mpr
          (Or.inl (List.mem_cons_of_mem _ (List.mem_append.mpr (Or.inl hPl))))
    have hPp : P ≠ p := fun hcontra => hpnot P hPmem (hcontra.symm)
    have hQa : Q ≠ a := by
      intro hcontra
      subst hcontra
      apply hanot
      rcases List.mem_append.mp hQm with hq1 | hq2
      · exact List.mem_append.mpr (Or.inl (List.mem_append.mpr
          (Or.inr (List.mem_cons_of_mem _ hq1))))
      · exact List.mem_append.mpr (Or.inr hq2)
    refine ⟨P, Q, hP, hQ, List.mem_cons_of_mem _ hPm, hQm, ?_, ?_, hseg'⟩
    · rw [nodeAt_wPrev_next, nodeAt_amod_ne _ _ hPp]
      exact h1
    · rw [nodeAt_amod_ne _ _ hQa, nodeAt_wNext_prev]
      exact h2

/-- The last backward link of a segment: the `prev` pointer of the right
endpoint designates the last identifier of `p :: ids`. -/
theorem seg_last_prev {h : Heap K V} :
    ∀ (ids : List Nat) (p q : Nat), seg h p ids q →
      (nodeAt h q).prev = some ((p :: ids).getLast (List.cons_ne_nil _ _))
  | [], p, q, hseg => hseg.2
  | i :: rest, p, q, hseg => by
      have := seg_last_prev rest i q hseg.2.2
      simpa [List.getLast] using this

/-! ### Specifications of the pointer operations -/

/-- Distinctness facts packed out of a nodup chain `hd :: mid ++ [tl]`. -/
theorem chain_facts {hd tl : Nat} {mid : List Nat}
    (hnd : (hd :: mid ++ [tl]).Nodup) :
    hd ∉ mid ∧ tl ∉ mid ∧ hd ≠ tl := by
  rcases List.nodup_cons.mp hnd with ⟨hh, ht⟩
  have htl : (tl :: mid).Nodup := (List.perm_append_singleton tl mid).nodup ht
  refine ⟨fun hm => hh (List.mem_append.mpr (Or.inl hm)), (List.nodup_cons.mp htl).1,
    fun he => hh (List.mem_append.mpr (Or.inr (he ▸ List.mem_singleton.mpr rfl)))⟩

/-- Go `removeNode` on the node `i` sitting between `l1` and `l2` in the
chain: it succeeds and splices `i` out, touching no key, no value, no
allocation status, and neither `head.prev` nor `tail.next`. -/
theorem removeNode_spec (lru : LRUCache K V) (l1 : List Nat) (i : Nat) (l2 : List Nat)
    (hseg : seg lru.heap lru.head (l1 ++ i :: l2) lru.tail)
    (hnd : (lru.head :: (l1 ++ i :: l2) ++ [lru.tail]).Nodup)
    (hall : ∀ a ∈ lru.head :: (l1 ++ i :: l2) ++ [lru.tail],
      (alookup lru.heap a).isSome) :
    ∃ h' : Heap K V,
      removeNode lru (some i) = some { lru with heap := h' } ∧
      seg h' lru.head (l1 ++ l2) lru.tail ∧
      (∀ j, (alookup h' j).isSome = (alookup lru.heap j).isSome) ∧
      (∀ j, (nodeAt h' j).key = (nodeAt lru.heap j).key) ∧
      (∀ j, (nodeAt h' j).value = (nodeAt lru.heap j).value) ∧
      (nodeAt h' lru.head).prev = (nodeAt lru.heap lru.head).prev ∧
      (nodeAt h' lru.tail).next = (nodeAt lru.heap lru.tail).next := by
  obtain ⟨P, Q, hP, hQ, hPm, hQm, hseg'⟩ :=
    seg_remove l1 lru.head i l2 lru.tail hseg hnd hall
  obtain ⟨hhd, htl, hht⟩ := chain_facts hnd
  have hPc : P ∈ lru.head :: (l1 ++ i :: l2) ++ [lru.tail] := by
    rcases List.mem_cons.mp hPm with hp1 | hp2
    · exact hp1 ▸ List.mem_cons_self _ _
    · exact List.mem_cons_of_mem _
        (List.mem_append.mpr (Or.inl (List.mem_append.mpr (Or.inl hp2))))
  have hQc : Q ∈ lru.head :: (l1 ++ i :: l2) ++ [lru.tail] := by
    rcases List.mem_append.mp hQm with hq1 | hq2
    · exact List.mem_cons_of_mem _ (List.mem_append.mpr
        (Or.inl (List.mem_append.mpr (Or.inr (List.mem_cons_of_mem _ hq1)))))
    · exact List.mem_cons_of_mem _ (List.mem_append.mpr (Or.inr hq2))
  have hQh : Q ≠ lru.head := by
    intro he
    subst he
    rcases List.mem_append.mp hQm with hq1 | hq2
    · exact hhd (List.mem_append.mpr (Or.inr (List.mem_cons_of_mem _ hq1)))
    · exact hht (List.mem_singleton.mp hq2)
  have hPt : P ≠ lru.tail := by
    intro he
    subst he
    rcases List.mem_cons.mp hPm with hp1 | hp2
    · exact hht hp1.symm
    · exact htl (List.mem_append.mpr (Or.inl hp2))
  have his : (alookup lru.heap i).isSome := hall i
    (List.mem_cons_of_mem _ (List.mem_append.mpr
      (Or.inl (List.mem_append.mpr (Or.inr (List.mem_cons_self _ _))))))
  obtain ⟨n, hn⟩ := Option.isSome_iff_exists.mp his
  have hnode : nodeAt lru.heap i = n := by simp [nodeAt, hn]
  have hprev : n.prev = some P := by rw [← hnode]; exact hP
  have hnext : n.next = some Q := by rw [← hnode]; exact hQ
  have hPs : (alookup lru.heap P).isSome := hall P hPc
  have hQs : (alookup (amod lru.heap P (wNext (some Q))) Q).isSome := by
    rw [alookup_amod_isSome]
    exact hall Q hQc
  have e1 : writeN lru.heap n.prev (wNext n.next) =
      some (amod lru.heap P (wNext (some Q))) := by
    rw [hprev, hnext]
    exact writeN_some _ _ _ hPs
  have e2 : writeN (amod lru.heap P (wNext (some Q))) n.next (wPrev n.prev) =
      some (amod (amod lru.heap P (wNext (some Q))) Q (wPrev (some P))) := by
    rw [hprev, hnext]
    exact writeN_some _ _ _ hQs
  refine ⟨amod (amod lru.heap P (wNext (some Q))) Q (wPrev (some P)),
    ?_, hseg', ?_, ?_, ?_, ?_, ?_⟩
  · simp only [removeNode, Option.bind, hn, e1, e2, Option.some_bind,
      Option.bind_eq_bind]
    rfl
  · intro j
    rw [alookup_amod_isSome, alookup_amod_isSome]
  · intro j
    rw [nodeAt_wPrev_key, nodeAt_wNext_key]
  · intro j
    rw [nodeAt_wPrev_value, nodeAt_wNext_value]
  · rw [nodeAt_amod_ne _ _ hQh, nodeAt_wNext_prev]
  · rw [nodeAt_wPrev_next, nodeAt_amod_ne _ _ hPt]

/-- Go `addNode` of an allocated node `n` not in the chain: it succeeds and
links `n` right after the head sentinel, touching no key, no value, no
allocation status, and neither `head.prev` nor `tail.next`. -/
theorem addNode_spec (lru : LRUCache K V) (ids : List Nat) (n : Nat)
    (hseg : seg lru.heap lru.head ids lru.tail)
    (hnd : (lru.head :: ids ++ [lru.tail]).Nodup)
    (hall : ∀ a ∈ lru.head :: ids ++ [lru.tail], (alookup lru.heap a).isSome)
    (hns : (alookup lru.heap n).isSome)
    (hnm : n ∉ lru.head :: ids ++ [lru.tail]) :
    ∃ h' : Heap K V,
      addNode lru n = some { lru with heap := h' } ∧
      seg h' lru.head (n :: ids) lru.tail ∧
      (∀ j, (alookup h' j).isSome = (alookup lru.heap j).isSome) ∧
      (∀ j, (nodeAt h' j).key = (nodeAt lru.heap j).key) ∧
      (∀ j, (nodeAt h' j).value = (nodeAt lru.heap j).value) ∧
      (nodeAt h' lru.head).prev = (nodeAt lru.heap lru.head).prev ∧
      (nodeAt h' lru.tail).next = (nodeAt lru.heap lru.tail).next := by
  obtain ⟨hhd, htl, hht⟩ := chain_facts hnd
  have hnh : n ≠ lru.head := fun he => hnm (he ▸ List.mem_cons_self _ _)
  have hnt : n ≠ lru.tail := fun he => hnm (List.mem_cons_of_mem _
    (List.mem_append.mpr (Or.inr (he ▸ List.mem_singleton.mpr rfl))))
  have hnmid : n ∉ ids := fun hm => hnm (List.mem_cons_of_mem _
    (List.mem_append.mpr (Or.inl hm)))
  have hhs : (alookup lru.heap lru.head).isSome :=
    hall _ (List.mem_cons_self _ _)
  obtain ⟨nhd, hnhd⟩ := Option.isSome_iff_exists.mp hhs
  -- the node right after the head: the first of `ids ++ [tail]`
  obtain ⟨b, hbnext, hbm⟩ :
      ∃ b, (nodeAt lru.heap lru.head).next = some b ∧ b ∈ ids ++ [lru.tail] := by
    cases ids with
    | nil => exact ⟨lru.tail, hseg.1, by simp⟩
    | cons c rest => exact ⟨c, hseg.1, by simp⟩
  have hnb : n ≠ b := fun he => hnm (List.mem_cons_of_mem _ (he ▸ hbm))
  have hbh : lru.head ≠ b := by
    intro he
    rcases List.mem_append.mp hbm with hb1 | hb2
    · exact hhd (he ▸ hb1)
    · exact hht (he.trans (List.mem_singleton.mp hb2))
  have hnhdnext : nhd.next = some b := by
    rw [show nhd = nodeAt lru.heap lru.head by simp [nodeAt, hnhd]]
    exact hbnext
  -- heaps after each of the four writes
  set h1 := amod lru.heap n (wPrev (some lru.head)) with hh1
  set h2 := amod h1 n (wNext (some b)) with hh2
  set h3 := amod h2 b (wPrev (some n)) with hh3
  set h4 := amod h3 lru.head (wNext (some n)) with hh4
  have e1 : writeN lru.heap (some n) (wPrev (some lru.head)) = some h1 :=
    writeN_some _ _ _ hns
  have e2 : alookup h1 lru.head = some nhd := by
    rw [hh1, alookup_amod, if_neg hnh]
    exact hnhd
  have e3 : writeN h1 (some n) (wNext nhd.next) = some h2 := by
    rw [hnhdnext]
    refine writeN_some _ _ _ ?_
    rw [hh1, alookup_amod_isSome]
    exact hns
  have e4 : alookup h2 lru.head = some nhd := by
    rw [hh2, alookup_amod, if_neg hnh]
    exact e2
  have e5 : writeN h2 nhd.next (wPrev (some n)) = some h3 := by
    rw [hnhdnext]
    refine writeN_some _ _ _ ?_
    rw [hh2, alookup_amod_isSome, hh1, alookup_amod_isSome]
    rcases List.mem_append.mp hbm with hb1 | hb2
    · exact hall b (List.mem_cons_of_mem _ (List.mem_append.mpr (Or.inl hb1)))
    · exact hall b (List.mem_cons_of_mem _ (List.mem_append.mpr (Or.inr hb2)))
  have e6 : writeN h3 (some lru.head) (wNext (some n)) = some h4 := by
    refine writeN_some _ _ _ ?_
    rw [hh3, alookup_amod_isSome, hh2, alookup_amod_isSome, hh1,
      alookup_amod_isSome]
    exact hhs
  have hisSome : ∀ j, (alookup h4 j).isSome = (alookup lru.heap j).isSome := by
    intro j
    rw [hh4, alookup_amod_isSome, hh3, alookup_amod_isSome, hh2,
      alookup_amod_isSome, hh1, alookup_amod_isSome]
  refine ⟨h4, ?_, ?_, hisSome, ?_, ?_, ?_, ?_⟩
  · simp only [addNode, Option.bind, e1, e2, e3, e4, e5, e6, Option.some_bind,
      Option.bind_eq_bind]
    rfl
  · -- the new chain n :: ids
    have hbs2 : (alookup h2 b).isSome := by
      rw [hh2, alookup_amod_isSome, hh1, alookup_amod_isSome]
      rcases List.mem_append.mp hbm with hb1 | hb2
      · exact hall b (List.mem_cons_of_mem _ (List.mem_append.mpr (Or.inl hb1)))
      · exact hall b (List.mem_cons_of_mem _ (List.mem_append.mpr (Or.inr hb2)))
    have hnnext : (nodeAt h4 n).next = some b := by
      rw [hh4, nodeAt_amod_ne _ _ (Ne.symm hnh), hh3, nodeAt_wPrev_next, hh2]
      refine nodeAt_wNext_self _ ?_
      rw [hh1, alookup_amod_isSome]
      exact hns
    have hbprev : (nodeAt h4 b).prev = some n := by
      rw [hh4, nodeAt_wNext_prev, hh3]
      exact nodeAt_wPrev_self _ hbs2
    refine ⟨?_, ?_, ?_⟩
    · rw [hh4]
      refine nodeAt_wNext_self _ ?_
      rw [hh3, alookup_amod_isSome, hh2, alookup_amod_isSome, hh1,
        alookup_amod_isSome]
      exact hhs
    · rw [hh4, nodeAt_amod_ne _ _ (Ne.symm hnh), hh3,
        nodeAt_amod_ne _ _ (Ne.symm hnb), hh2, nodeAt_wNext_prev, hh1]
      exact nodeAt_wPrev_self _ hns
    · cases ids with
      | nil =>
        have hbt : b = lru.tail := by simpa using hbm
        subst hbt
        exact ⟨hnnext, hbprev⟩
      | cons c rest =>
        obtain rfl : c = b := by
          rw [hseg.1] at hbnext
          exact Option.some_inj.mp hbnext
        have hcnot : c ∉ rest ++ [lru.tail] := by
          have ht := (List.nodup_cons.mp hnd).2
          simp only [List.cons_append] at ht
          exact (List.nodup_cons.mp ht).1
        refine ⟨hnnext, hbprev, ?_⟩
        refine seg_congr rest c lru.tail ?_ ?_ hseg.2.2
        · intro x hx
          have hhx : lru.head ≠ x := fun he => hhd (he ▸ hx)
          have hnx : n ≠ x := fun he => hnmid (he ▸ hx)
          rw [hh4, nodeAt_amod_ne _ _ hhx, hh3, nodeAt_wPrev_next, hh2,
            nodeAt_amod_ne _ _ hnx, hh1, nodeAt_wPrev_next]
        · intro x hx
          have hnx : n ≠ x := by
            intro he
            subst he
            rcases List.mem_append.mp hx with hx1 | hx2
            · exact hnmid (List.mem_cons_of_mem _ hx1)
            · exact hnt (List.mem_singleton.mp hx2)
          have hcx : c ≠ x := fun he => hcnot (he ▸ hx)
          rw [hh4, nodeAt_wNext_prev, hh3, nodeAt_amod_ne _ _ hcx, hh2,
            nodeAt_wNext_prev, hh1, nodeAt_amod_ne _ _ hnx]
  · intro j
    rw [hh4, nodeAt_wNext_key, hh3, nodeAt_wPrev_key, hh2, nodeAt_wNext_key,
      hh1, nodeAt_wPrev_key]
  · intro j
    rw [hh4, nodeAt_wNext_value, hh3, nodeAt_wPrev_value, hh2,
      nodeAt_wNext_value, hh1, nodeAt_wPrev_value]
  · rw [hh4, nodeAt_wNext_prev, hh3, nodeAt_amod_ne _ _ (Ne.symm hbh), hh2,
      nodeAt_wNext_prev, hh1, nodeAt_amod_ne _ _ hnh]
  · rw [hh4, nodeAt_amod_ne _ _ hht, hh3, nodeAt_wPrev_next, hh2,
      nodeAt_amod_ne _ _ hnt, hh1, nodeAt_wPrev_next]

/-! ### Well-formed cache states -/

/-- Well-formedness of a cache state, witnessed by the list `ids` of live
node identifiers in front-to-back order: the sentinels and `ids` form a
doubly linked chain, the sentinels stay unlinked outward, the map is in
bijection with the live nodes, and all allocated identifiers are below the
allocator counter. -/
structure WFon (lru : LRUCache K V) (ids : List Nat) : Prop where
  nodup : (lru.head :: ids ++ [lru.tail]).Nodup
  alloc : ∀ a ∈ lru.head :: ids ++ [lru.tail], (alookup lru.heap a).isSome
  chain : seg lru.heap lru.head ids lru.tail
  headPrev : (nodeAt lru.heap lru.head).prev = none
  tailNext : (nodeAt lru.heap lru.tail).next = none
  mapNodup : (lru.cache.map Prod.fst).Nodup
  mapSub : ∀ p ∈ lru.cache, p.2 ∈ ids ∧ (nodeAt lru.heap p.2).key = p.1
  idsSub : ∀ i ∈ ids, ((nodeAt lru.heap i).key, i) ∈ lru.cache
  freshBound : ∀ j, lru.fresh ≤ j → alookup lru.heap j = none
  sizeEq : lru.cache.length = ids.length

theorem eq_none_of_isSome_false {α : Type} {o : Option α}
    (h : o.isSome = false) : o = none := by
  cases o
  · rfl
  · simp at h

/-- Go `moveToHead` of the live node `i`: it succeeds, rotates `i` to the
front of the chain, and preserves everything except the link structure. -/
theorem moveToHead_WF (lru : LRUCache K V) (l1 : List Nat) (i : Nat) (l2 : List Nat)
    (wf : WFon lru (l1 ++ i :: l2)) :
    ∃ h' : Heap K V,
      moveToHead lru i = some { lru with heap := h' } ∧
      WFon { lru with heap := h' } (i :: (l1 ++ l2)) ∧
      (∀ j, (alookup h' j).isSome = (alookup lru.heap j).isSome) ∧
      (∀ j, (nodeAt h' j).key = (nodeAt lru.heap j).key) ∧
      (∀ j, (nodeAt h' j).value = (nodeAt lru.heap j).value) := by
  obtain ⟨hr, er, segr, somer, keyr, valr, hpr, tnr⟩ :=
    removeNode_spec lru l1 i l2 wf.chain wf.nodup wf.alloc
  obtain ⟨hhd, htl, hht⟩ := chain_facts wf.nodup
  have hmidnd : (l1 ++ i :: l2).Nodup :=
    ((wf.nodup.of_cons).sublist (List.sublist_append_left _ _))
  have hinot : i ∉ l1 ++ l2 :=
    (List.nodup_cons.mp (List.perm_middle.nodup hmidnd)).1
  have himid : i ∈ l1 ++ i :: l2 :=
    List.mem_append.mpr (Or.inr (List.mem_cons_self _ _))
  have hmemsub : ∀ a, a ∈ lru.head :: (l1 ++ l2) ++ [lru.tail] →
      a ∈ lru.head :: (l1 ++ i :: l2) ++ [lru.tail] := by
    intro a ha
    rcases List.mem_cons.mp ha with ha1 | ha2
    · exact ha1 ▸ List.mem_cons_self _ _
    rcases List.mem_append.mp ha2 with ha3 | ha4
    · rcases List.mem_append.mp ha3 with ha5 | ha6
      · exact List.mem_cons_of_mem _ (List.mem_append.mpr
          (Or.inl (List.mem_append.mpr (Or.inl ha5))))
      · exact List.mem_cons_of_mem _ (List.mem_append.mpr
          (Or.inl (List.mem_append.mpr (Or.inr (List.mem_cons_of_mem _ ha6)))))
    · exact List.mem_cons_of_mem _ (List.mem_append.mpr (Or.inr ha4))
  have hndsmall : (lru.head :: (l1 ++ l2) ++ [lru.tail]).Nodup := by
    refine wf.nodup.sublist ?_
    refine List.Sublist.cons₂ _ ?_
    exact ((List.sublist_cons_self i l2).append_left l1).append_right _
  obtain ⟨ha, ea, sega, somea, keya, vala, hpa, tna⟩ :=
    addNode_spec { lru with heap := hr } (l1 ++ l2) i segr hndsmall
      (fun a hamem => by
        rw [somer]
        exact wf.alloc a (hmemsub a hamem))
      (by rw [somer]; exact wf.alloc i (List.mem_cons_of_mem _
        (List.mem_append.mpr (Or.inl himid))))
      (by
        intro hmem
        rcases List.mem_cons.mp hmem with h1 | h2
        · exact hhd (h1 ▸ himid)
        rcases List.mem_append.mp h2 with h3 | h4
        · exact hinot h3
        · exact htl ((List.mem_singleton.mp h4) ▸ himid))
  have hperm : List.Perm (l1 ++ i :: l2) (i :: (l1 ++ l2)) := List.perm_middle
  have hchainperm : List.Perm (lru.head :: (l1 ++ i :: l2) ++ [lru.tail])
      (lru.head :: (i :: (l1 ++ l2)) ++ [lru.tail]) :=
    List.Perm.cons _ (hperm.append_right _)
  refine ⟨ha, ?_, ?_, ?_, ?_, ?_⟩
  · simp only [moveToHead, er, Option.some_bind, Option.bind_eq_bind]
    exact ea
  · refine ⟨hchainperm.nodup wf.nodup, ?_, sega, ?_, ?_, wf.mapNodup, ?_, ?_, ?_, ?_⟩
    · intro a hamem
      rw [somea, somer]
      exact wf.alloc a (hchainperm.mem_iff.mpr hamem)
    · rw [hpa, hpr]
      exact wf.headPrev
    · rw [tna, tnr]
      exact wf.tailNext
    · intro p hp
      obtain ⟨hmem, hkey⟩ := wf.mapSub p hp
      refine ⟨hperm.mem_iff.mp hmem, ?_⟩
      rw [keya, keyr]
      exact hkey
    · intro a hamem
      have := wf.idsSub a (hperm.mem_iff.mpr hamem)
      rw [keya, keyr]
      exact this
    · intro j hj
      refine eq_none_of_isSome_false ?_
      rw [somea, somer, wf.freshBound j hj]
      rfl
    · rw [wf.sizeEq]
      simp only [List.length_append, List.length_cons]
      omega
  · intro j
    rw [somea, somer]
  · intro j
    rw [keya, keyr]
  · intro j
    rw [vala, valr]

/-! ### The traversal of a well-formed state -/

theorem traverseFrom_seg (h : Heap K V) (tl : Nat) :
    ∀ (ids : List Nat) (start fuel : Nat),
      seg h start ids tl →
      (ids ++ [tl]).Nodup →
      (∀ a ∈ ids, (alookup h a).isSome) →
      ids.length < fuel →
      traverseFrom h tl fuel (nodeAt h start).next =
        ids.map (fun a => ((nodeAt h a).key, (nodeAt h a).value)) := by
  intro ids
  induction ids with
  | nil =>
    intro start fuel hseg hnd hall hfuel
    obtain ⟨f, rfl⟩ : ∃ f, fuel = f + 1 := ⟨fuel - 1, by omega⟩
    rw [hseg.1]
    simp [traverseFrom]
  | cons a rest ih =>
    intro start fuel hseg hnd hall hfuel
    obtain ⟨f, rfl⟩ : ∃ f, fuel = f + 1 := ⟨fuel - 1, by omega⟩
    obtain ⟨h1, h2, h3⟩ := hseg
    rw [h1]
    have hanot : a ∉ rest ++ [tl] := by
      simp only [List.cons_append] at hnd
      exact (List.nodup_cons.mp hnd).1
    have hat : a ≠ tl :=
      fun he => hanot (List.mem_append.mpr (Or.inr (by simp [he])))
    have has : (alookup h a).isSome := hall a (List.mem_cons_self _ _)
    obtain ⟨n, hn⟩ := Option.isSome_iff_exists.mp has
    have hnode : n = nodeAt h a := by simp [nodeAt, hn]
    simp only [traverseFrom, if_neg hat, hn, List.map_cons]
    rw [hnode]
    congr 1
    refine ih a f h3 ?_ (fun x hx => hall x (List.mem_cons_of_mem _ hx)) ?_
    · simp only [List.cons_append] at hnd
      exact (List.nodup_cons.mp hnd).2
    · simp only [List.length_cons] at hfuel
      omega

/-- On a well-formed state the `Display` traversal lists exactly the live
nodes, front to back. -/
theorem traversal_WF (lru : LRUCache K V) (ids : List Nat) (wf : WFon lru ids) :
    traversal lru =
      ids.map (fun a => ((nodeAt lru.heap a).key, (nodeAt lru.heap a).value)) := by
  have hnd : (ids ++ [lru.tail]).Nodup := wf.nodup.of_cons
  have hall : ∀ a ∈ ids, (alookup lru.heap a).isSome := fun a ha =>
    wf.alloc a (List.mem_cons_of_mem _ (List.mem_append.mpr (Or.inl ha)))
  have hfuel : ids.length < lru.heap.length + 1 := by
    have hsub : (ids ++ [lru.tail]) ⊆ lru.heap.map Prod.fst := by
      intro x hx
      exact mem_keys_of_alookup_isSome (wf.alloc x (List.mem_cons_of_mem _ hx))
    have hle := (List.subperm_of_subset hnd hsub).length_le
    simp only [List.length_append, List.length_singleton, List.length_map] at hle
    omega
  exact traverseFrom_seg lru.heap lru.tail ids lru.head (lru.heap.length + 1)
    wf.chain hnd hall hfuel

/-- The keys of the live nodes of a well-formed state are distinct. -/
theorem WF_keys_nodup (lru : LRUCache K V) (ids : List Nat) (wf : WFon lru ids) :
    (ids.map fun a => (nodeAt lru.heap a).key).Nodup := by
  have hidnd : ids.Nodup :=
    (wf.nodup.of_cons).sublist (List.sublist_append_left _ _)
  refine List.Nodup.map_on ?_ hidnd
  intro x hx y hy hkey
  have h1 := wf.idsSub x hx
  have h2 := wf.idsSub y hy
  rw [hkey] at h1
  exact keys_nodup_val_inj wf.mapNodup h1 h2

/-- On a well-formed state, a map hit designates a live node carrying the
looked-up key. -/
theorem WF_lookup_facts (lru : LRUCache K V) (ids : List Nat) (k : K) (i : Nat)
    (wf : WFon lru ids) (hk : alookup lru.cache k = some i) :
    i ∈ ids ∧ (nodeAt lru.heap i).key = k :=
  wf.mapSub (k, i) (mem_of_alookup_eq_some hk)

/-! ### Specifications of `Get` and of `Put` on a present key -/

/-- Overwriting a node's value (the `node.value = value` statement of the
hit branch of `Put`) preserves well-formedness outright. -/
theorem WFon_value_write (lru : LRUCache K V) (ids : List Nat) (i : Nat) (v : V)
    (wf : WFon lru ids) :
    WFon { lru with heap := amod lru.heap i (wValue v) } ids := by
  refine ⟨wf.nodup, ?_, ?_, ?_, ?_, wf.mapNodup, ?_, ?_, ?_, wf.sizeEq⟩
  · intro a ha
    show (alookup (amod lru.heap i (wValue v)) a).isSome
    rw [alookup_amod_isSome]
    exact wf.alloc a ha
  · refine seg_congr ids lru.head lru.tail ?_ ?_ wf.chain
    · intro x _
      exact nodeAt_wValue_next _ _ _ _
    · intro x _
      exact nodeAt_wValue_prev _ _ _ _
  · show (nodeAt (amod lru.heap i (wValue v)) lru.head).prev = none
    rw [nodeAt_wValue_prev]
    exact wf.headPrev
  · show (nodeAt (amod lru.heap i (wValue v)) lru.tail).next = none
    rw [nodeAt_wValue_next]
    exact wf.tailNext
  · intro p hp
    obtain ⟨hm, hkey⟩ := wf.mapSub p hp
    refine ⟨hm, ?_⟩
    show (nodeAt (amod lru.heap i (wValue v)) p.2).key = p.1
    rw [nodeAt_wValue_key]
    exact hkey
  · intro a ha
    have := wf.idsSub a ha
    show ((nodeAt (amod lru.heap i (wValue v)) a).key, a) ∈ lru.cache
    rw [nodeAt_wValue_key]
    exact this
  · intro j hj
    show alookup (amod lru.heap i (wValue v)) j = none
    refine eq_none_of_isSome_false ?_
    rw [alookup_amod_isSome, wf.freshBound j hj]
    rfl

/-- Go `Get` on a present key: it succeeds, returns the stored value with
`true`, rotates the node to the front, and changes no key, no value and
no map entry. -/
theorem Get_hit_spec (lru : LRUCache K V) (ids : List Nat) (k : K) (i : Nat)
    (wf : WFon lru ids) (hk : alookup lru.cache k = some i) :
    ∃ l1 l2 h', ids = l1 ++ i :: l2 ∧
      Get lru k = some (((nodeAt lru.heap i).value, true), { lru with heap := h' }) ∧
      WFon { lru with heap := h' } (i :: (l1 ++ l2)) ∧
      (∀ j, (alookup h' j).isSome = (alookup lru.heap j).isSome) ∧
      (∀ j, (nodeAt h' j).key = (nodeAt lru.heap j).key) ∧
      (∀ j, (nodeAt h' j).value = (nodeAt lru.heap j).value) := by
  obtain ⟨hi, hkey⟩ := WF_lookup_facts lru ids k i wf hk
  obtain ⟨l1, l2, rfl⟩ := List.append_of_mem hi
  obtain ⟨h', em, wfm, som, keym, valm⟩ := moveToHead_WF lru l1 i l2 wf
  have his : (alookup h' i).isSome := by
    rw [som]
    exact wf.alloc i (List.mem_cons_of_mem _ (List.mem_append.mpr
      (Or.inl (List.mem_append.mpr (Or.inr (List.mem_cons_self _ _))))))
  obtain ⟨n, hn⟩ := Option.isSome_iff_exists.mp his
  have hval : n.value = (nodeAt lru.heap i).value := by
    have hni : n = nodeAt h' i := by simp [nodeAt, hn]
    rw [hni, valm]
  refine ⟨l1, l2, h', rfl, ?_, wfm, som, keym, valm⟩
  simp only [Get, hk, em, hn, Option.some_bind, Option.bind_eq_bind]
  rw [hval]
  rfl

/-- Go `Get` on an absent key: the zero value, `false`, and the state is
returned untouched. -/
theorem Get_miss_spec (lru : LRUCache K V) (k : K)
    (hk : alookup lru.cache k = none) :
    Get lru k = some ((default, false), lru) := by
  simp [Get, hk]

/-- Go `Put` on a present key: it succeeds, overwrites the stored value,
rotates the node to the front, and changes no map entry, no key, and no
other node's value. -/
theorem Put_hit_spec (lru : LRUCache K V) (ids : List Nat) (k : K) (i : Nat) (v : V)
    (wf : WFon lru ids) (hk : alookup lru.cache k = some i) :
    ∃ l1 l2 h', ids = l1 ++ i :: l2 ∧
      Put lru k v = some { lru with heap := h' } ∧
      WFon { lru with heap := h' } (i :: (l1 ++ l2)) ∧
      (∀ j, (alookup h' j).isSome = (alookup lru.heap j).isSome) ∧
      (∀ j, (nodeAt h' j).key = (nodeAt lru.heap j).key) ∧
      (∀ j, j ≠ i → (nodeAt h' j).value = (nodeAt lru.heap j).value) ∧
      (nodeAt h' i).value = v := by
  obtain ⟨hi, hkey⟩ := WF_lookup_facts lru ids k i wf hk
  have his : (alookup lru.heap i).isSome :=
    wf.alloc i (List.mem_cons_of_mem _ (List.mem_append.mpr
      (Or.inl hi)))
  have wf0 : WFon { lru with heap := amod lru.heap i (wValue v) } ids :=
    WFon_value_write lru ids i v wf
  obtain ⟨l1, l2, rfl⟩ := List.append_of_mem hi
  obtain ⟨h', em, wfm, som, keym, valm⟩ :=
    moveToHead_WF { lru with heap := amod lru.heap i (wValue v) } l1 i l2 wf0
  have e1 : writeN lru.heap (some i) (wValue v) =
      some (amod lru.heap i (wValue v)) := writeN_some _ _ _ his
  refine ⟨l1, l2, h', rfl, ?_, wfm, ?_, ?_, ?_, ?_⟩
  · simp only [Put, hk, e1, Option.some_bind, Option.bind_eq_bind]
    exact em
  · intro j
    rw [som j]
    exact alookup_amod_isSome _ _ _ _
  · intro j
    rw [keym j]
    exact nodeAt_wValue_key _ _ _ _
  · intro j hji
    rw [valm j]
    show (nodeAt (amod lru.heap i (wValue v)) j).value = (nodeAt lru.heap j).value
    rw [nodeAt_amod_ne _ _ (Ne.symm hji)]
  · rw [valm i]
    exact nodeAt_wValue_self _ his

/-! ### Specification of `Put` on an absent key -/

theorem adelete_sublist {κ α : Type} [DecidableEq κ] (m : List (κ × α)) (k : κ) :
    List.Sublist (adelete m k) m := by
  induction m with
  | nil => exact List.Sublist.refl _
  | cons p t ih =>
    obtain ⟨a, b⟩ := p
    by_cases hak : a = k
    · simp only [adelete, if_pos hak]
      exact ih.cons _
    · simp only [adelete, if_neg hak]
      exact ih.cons₂ _

theorem not_mem_keys_of_lookup_none {κ α : Type} [DecidableEq κ]
    {m : List (κ × α)} {k : κ} (hk : alookup m k = none) :
    k ∉ m.map Prod.fst := by
  intro hmem
  obtain ⟨p, hp, hpk⟩ := List.mem_map.mp hmem
  exact (alookup_eq_none_iff.mp hk) p hp hpk

/-- Allocating the fresh node (the `&Node[K, V]{key, value}` line of the
miss branch of `Put`) preserves well-formedness, makes the new identifier
visible, and leaves every other identifier untouched. -/
theorem WFon_alloc (lru : LRUCache K V) (ids : List Nat) (nd : Node K V)
    (wf : WFon lru ids) :
    WFon { lru with heap := lru.heap ++ [(lru.fresh, nd)],
                    fresh := lru.fresh + 1 } ids ∧
    alookup (lru.heap ++ [(lru.fresh, nd)]) lru.fresh = some nd ∧
    lru.fresh ∉ lru.head :: ids ++ [lru.tail] ∧
    (∀ j, j ≠ lru.fresh →
      alookup (lru.heap ++ [(lru.fresh, nd)]) j = alookup lru.heap j) := by
  have hfe : alookup lru.heap lru.fresh = none := wf.freshBound _ le_rfl
  have hself : alookup (lru.heap ++ [(lru.fresh, nd)]) lru.fresh = some nd := by
    rw [alookup_append_of_none _ hfe]
    simp [alookup]
  have hother : ∀ j, j ≠ lru.fresh →
      alookup (lru.heap ++ [(lru.fresh, nd)]) j = alookup lru.heap j := by
    intro j hj
    cases hs : alookup lru.heap j with
    | some x =>
      rw [alookup_append_of_isSome _ (by rw [hs]; rfl), hs]
    | none =>
      have hfj : ¬ lru.fresh = j := fun he => hj he.symm
      rw [alookup_append_of_none _ hs]
      simp [alookup, hfj]

  have hnotchain : lru.fresh ∉ lru.head :: ids ++ [lru.tail] := by
    intro hmem
    have := wf.alloc _ hmem
    rw [hfe] at this
    simp at this
  have hnode : ∀ j, j ≠ lru.fresh →
      nodeAt (lru.heap ++ [(lru.fresh, nd)]) j = nodeAt lru.heap j := by
    intro j hj
    rw [nodeAt, hother j hj, nodeAt]
  refine ⟨⟨wf.nodup, ?_, ?_, ?_, ?_, wf.mapNodup, ?_, ?_, ?_, wf.sizeEq⟩,
    hself, hnotchain, hother⟩
  · intro a ha
    show (alookup (lru.heap ++ [(lru.fresh, nd)]) a).isSome
    rw [hother a (fun he => hnotchain (he ▸ ha))]
    exact wf.alloc a ha
  · refine seg_congr ids lru.head lru.tail ?_ ?_ wf.chain
    · intro x hx
      have hxc : x ∈ lru.head :: ids ++ [lru.tail] := by
        rcases List.mem_cons.mp hx with h1 | h2
        · exact h1 ▸ List.mem_cons_self _ _
        · exact List.mem_cons_of_mem _ (List.mem_append.mpr (Or.inl h2))
      rw [hnode x (fun he => hnotchain (he ▸ hxc))]
    · intro x hx
      have hxc : x ∈ lru.head :: ids ++ [lru.tail] := by
        rcases List.mem_append.mp hx with h1 | h2
        · exact List.mem_cons_of_mem _ (List.mem_append.mpr (Or.inl h1))
        · exact List.mem_cons_of_mem _ (List.mem_append.mpr (Or.inr h2))
      rw [hnode x (fun he => hnotchain (he ▸ hxc))]
  · show (nodeAt (lru.heap ++ [(lru.fresh, nd)]) lru.head).prev = none
    rw [hnode _ (fun he => hnotchain (he ▸ List.mem_cons_self _ _))]
    exact wf.headPrev
  · show (nodeAt (lru.heap ++ [(lru.fresh, nd)]) lru.tail).next = none
    rw [hnode _ (fun he => hnotchain (he ▸ List.mem_cons_of_mem _
      (List.mem_append.mpr (Or.inr (List.mem_singleton.mpr rfl)))))]
    exact wf.tailNext
  · intro p hp
    obtain ⟨hm, hkey⟩ := wf.mapSub p hp
    refine ⟨hm, ?_⟩
    show (nodeAt (lru.heap ++ [(lru.fresh, nd)]) p.2).key = p.1
    rw [hnode _ (fun he => hnotchain (he ▸ List.mem_cons_of_mem _
      (List.mem_append.mpr (Or.inl hm))))]
    exact hkey
  · intro a ha
    have := wf.idsSub a ha
    show ((nodeAt (lru.heap ++ [(lru.fresh, nd)]) a).key, a) ∈ lru.cache
    rw [hnode _ (fun he => hnotchain (he ▸ List.mem_cons_of_mem _
      (List.mem_append.mpr (Or.inl ha))))]
    exact this
  · intro j hj
    show alookup (lru.heap ++ [(lru.fresh, nd)]) j = none
    have hj0 : lru.fresh + 1 ≤ j := hj
    have hj1 : j ≠ lru.fresh := by omega
    rw [hother j hj1]
    exact wf.freshBound j (by omega)

/-- Go `popTail` on a well-formed nonempty state: it removes exactly the
back node `e` of the chain and returns it. -/
theorem popTail_WF (lru : LRUCache K V) (l : List Nat) (e : Nat)
    (wf : WFon lru (l ++ [e])) :
    ∃ h', popTail lru = some ({ lru with heap := h' }, e) ∧
      seg h' lru.head l lru.tail ∧
      (∀ j, (alookup h' j).isSome = (alookup lru.heap j).isSome) ∧
      (∀ j, (nodeAt h' j).key = (nodeAt lru.heap j).key) ∧
      (∀ j, (nodeAt h' j).value = (nodeAt lru.heap j).value) ∧
      (nodeAt h' lru.head).prev = (nodeAt lru.heap lru.head).prev ∧
      (nodeAt h' lru.tail).next = (nodeAt lru.heap lru.tail).next := by
  have hsplit := (seg_append l lru.head e [] lru.tail).mp wf.chain
  have htprev : (nodeAt lru.heap lru.tail).prev = some e := hsplit.2.2
  have hts : (alookup lru.heap lru.tail).isSome :=
    wf.alloc _ (List.mem_cons_of_mem _ (List.mem_append.mpr
      (Or.inr (List.mem_singleton.mpr rfl))))
  obtain ⟨tnode, htn⟩ := Option.isSome_iff_exists.mp hts
  have htnp : tnode.prev = some e := by
    rw [show tnode = nodeAt lru.heap lru.tail by simp [nodeAt, htn]]
    exact htprev
  obtain ⟨h', er, segr, somer, keyr, valr, hpr, tnr⟩ :=
    removeNode_spec lru l e [] wf.chain wf.nodup wf.alloc
  have segl : seg h' lru.head l lru.tail := by
    simpa using segr
  refine ⟨h', ?_, segl, somer, keyr, valr, hpr, tnr⟩
  simp only [popTail, htn, htnp, er, Option.some_bind, Option.bind_eq_bind]
  rfl

/-- The common tail of the miss branch of `Put`: insert the (already
allocated) fresh node into the map and link it at the front. -/
theorem Put_add_WF (lruB : LRUCache K V) (ids : List Nat) (k : K) (v : V) (f : Nat)
    (wfB : WFon lruB ids)
    (hkB : alookup lruB.cache k = none)
    (hfs : (alookup lruB.heap f).isSome)
    (hfk : (nodeAt lruB.heap f).key = k)
    (hfv : (nodeAt lruB.heap f).value = v)
    (hnm : f ∉ lruB.head :: ids ++ [lruB.tail]) :
    ∃ h' : Heap K V,
      addNode { lruB with cache := ainsert lruB.cache k f } f =
        some { lruB with cache := ainsert lruB.cache k f, heap := h' } ∧
      WFon { lruB with cache := ainsert lruB.cache k f, heap := h' } (f :: ids) ∧
      (∀ j, (alookup h' j).isSome = (alookup lruB.heap j).isSome) ∧
      (∀ j, (nodeAt h' j).key = (nodeAt lruB.heap j).key) ∧
      (∀ j, (nodeAt h' j).value = (nodeAt lruB.heap j).value) := by
  have hins : ainsert lruB.cache k f = lruB.cache ++ [(k, f)] :=
    ainsert_of_none hkB f
  obtain ⟨h', ea, sega, somea, keya, vala, hpa, tna⟩ :=
    addNode_spec { lruB with cache := ainsert lruB.cache k f } ids f
      wfB.chain wfB.nodup wfB.alloc hfs hnm
  have hmem' : ∀ a ∈ lruB.head :: (f :: ids) ++ [lruB.tail],
      a = f ∨ a ∈ lruB.head :: ids ++ [lruB.tail] := by
    intro a ha
    rcases List.mem_cons.mp ha with h1 | h2
    · exact Or.inr (h1 ▸ List.mem_cons_self _ _)
    rcases List.mem_append.mp h2 with h3 | h4
    · rcases List.mem_cons.mp h3 with h5 | h6
      · exact Or.inl h5
      · exact Or.inr (List.mem_cons_of_mem _ (List.mem_append.mpr (Or.inl h6)))
    · exact Or.inr (List.mem_cons_of_mem _ (List.mem_append.mpr (Or.inr h4)))
  have hknot : k ∉ lruB.cache.map Prod.fst := not_mem_keys_of_lookup_none hkB
  have hfkey : (nodeAt h' f).key = k := by
    rw [keya]
    exact hfk
  refine ⟨h', ea, ⟨?_, ?_, sega, ?_, ?_, ?_, ?_, ?_, ?_, ?_⟩, somea, keya, vala⟩
  · have h0 : (f :: (lruB.head :: ids ++ [lruB.tail])).Nodup :=
      List.nodup_cons.mpr ⟨hnm, wfB.nodup⟩
    have hp : List.Perm (f :: (lruB.head :: ids ++ [lruB.tail]))
        (lruB.head :: (f :: ids) ++ [lruB.tail]) := by
      simp only [List.cons_append]
      exact List.Perm.swap _ _ _
    exact hp.nodup h0
  · intro a ha
    show (alookup h' a).isSome
    rw [somea]
    rcases hmem' a ha with rfl | hm
    · exact hfs
    · exact wfB.alloc a hm
  · show (nodeAt h' lruB.head).prev = none
    rw [hpa]
    exact wfB.headPrev
  · show (nodeAt h' lruB.tail).next = none
    rw [tna]
    exact wfB.tailNext
  · show ((ainsert lruB.cache k f).map Prod.fst).Nodup
    rw [hins, List.map_append]
    have h0 : (k :: lruB.cache.map Prod.fst).Nodup :=
      List.nodup_cons.mpr ⟨hknot, wfB.mapNodup⟩
    exact (List.perm_append_singleton _ _).symm.nodup h0
  · intro p hp
    have hp' : p ∈ lruB.cache ++ [(k, f)] := by
      rw [← hins]
      exact hp
    rcases List.mem_append.mp hp' with hpo | hpn
    · obtain ⟨hm, hkey⟩ := wfB.mapSub p hpo
      refine ⟨List.mem_cons_of_mem _ hm, ?_⟩
      show (nodeAt h' p.2).key = p.1
      rw [keya]
      exact hkey
    · have hpe : p = (k, f) := List.mem_singleton.mp hpn
      subst hpe
      exact ⟨List.mem_cons_self _ _, hfkey⟩
  · intro a ha
    show ((nodeAt h' a).key, a) ∈ ainsert lruB.cache k f
    rw [hins]
    rcases List.mem_cons.mp ha with rfl | hm
    · rw [hfkey]
      exact List.mem_append.mpr (Or.inr (List.mem_singleton.mpr rfl))
    · rw [keya]
      exact List.mem_append.mpr (Or.inl (wfB.idsSub a hm))
  · intro j hj
    show alookup h' j = none
    refine eq_none_of_isSome_false ?_
    rw [somea, wfB.freshBound j hj]
    rfl
  · show (ainsert lruB.cache k f).length = (f :: ids).length
    rw [hins, List.length_append, wfB.sizeEq]
    simp

/-- Go `Put` on an absent key with spare capacity: no eviction, the new
node is allocated, mapped and linked at the front. -/
theorem Put_miss_noevict_spec (lru : LRUCache K V) (ids : List Nat) (k : K) (v : V)
    (wf : WFon lru ids) (hk : alookup lru.cache k = none)
    (hlt : (lru.cache.length : Int) < lru.capacity) :
    ∃ h' : Heap K V,
      Put lru k v = some { lru with cache := ainsert lru.cache k lru.fresh,
                                    heap := h', fresh := lru.fresh + 1 } ∧
      WFon { lru with cache := ainsert lru.cache k lru.fresh,
                      heap := h', fresh := lru.fresh + 1 } (lru.fresh :: ids) ∧
      (nodeAt h' lru.fresh).key = k ∧
      (nodeAt h' lru.fresh).value = v ∧
      (∀ j, j ≠ lru.fresh → (nodeAt h' j).key = (nodeAt lru.heap j).key) ∧
      (∀ j, j ≠ lru.fresh → (nodeAt h' j).value = (nodeAt lru.heap j).value) := by
  obtain ⟨wfA, hself, hnotchain, hother⟩ :=
    WFon_alloc lru ids ⟨k, v, none, none⟩ wf
  have hnodeo : ∀ j, j ≠ lru.fresh →
      nodeAt (lru.heap ++ [(lru.fresh, (⟨k, v, none, none⟩ : Node K V))]) j =
        nodeAt lru.heap j := by
    intro j hj
    rw [nodeAt, hother j hj, nodeAt]
  have hfnode : nodeAt (lru.heap ++ [(lru.fresh, (⟨k, v, none, none⟩ : Node K V))])
      lru.fresh = ⟨k, v, none, none⟩ := by
    simp [nodeAt, hself]
  obtain ⟨h', ea, wf', some', key', val'⟩ :=
    Put_add_WF { lru with heap := lru.heap ++ [(lru.fresh, ⟨k, v, none, none⟩)],
                          fresh := lru.fresh + 1 } ids k v lru.fresh
      wfA hk (by rw [hself]; rfl)
      (by rw [hfnode]) (by rw [hfnode]) hnotchain
  have hcond : ¬ (lru.capacity ≤ (lru.cache.length : Int)) := not_le.mpr hlt
  refine ⟨h', ?_, wf', ?_, ?_, ?_, ?_⟩
  · simp only [Put, hk, hcond, if_false, Option.some_bind, Option.bind_eq_bind,
      ite_false]
    exact ea
  · rw [key']
    rw [hfnode]
  · rw [val']
    rw [hfnode]
  · intro j hj
    rw [key' j, hnodeo j hj]
  · intro j hj
    rw [val' j, hnodeo j hj]

/-- Go `Put` on an absent key at (or above) capacity: the back node `e` is
popped, its key is deleted from the map, and the new node is mapped and
linked at the front. -/
theorem Put_miss_evict_spec (lru : LRUCache K V) (l : List Nat) (e : Nat)
    (k : K) (v : V)
    (wf : WFon lru (l ++ [e])) (hk : alookup lru.cache k = none)
    (hge : lru.capacity ≤ (lru.cache.length : Int)) :
    ∃ h' : Heap K V,
      Put lru k v = some { lru with
        cache := ainsert (adelete lru.cache ((nodeAt lru.heap e).key)) k lru.fresh,
        heap := h', fresh := lru.fresh + 1 } ∧
      WFon { lru with
        cache := ainsert (adelete lru.cache ((nodeAt lru.heap e).key)) k lru.fresh,
        heap := h', fresh := lru.fresh + 1 } (lru.fresh :: l) ∧
      (nodeAt h' lru.fresh).key = k ∧
      (nodeAt h' lru.fresh).value = v ∧
      (∀ j, j ≠ lru.fresh → (nodeAt h' j).key = (nodeAt lru.heap j).key) ∧
      (∀ j, j ≠ lru.fresh → (nodeAt h' j).value = (nodeAt lru.heap j).value) := by
  obtain ⟨wfA, hself, hnotchain, hother⟩ :=
    WFon_alloc lru (l ++ [e]) ⟨k, v, none, none⟩ wf
  have hnodeo : ∀ j, j ≠ lru.fresh →
      nodeAt (lru.heap ++ [(lru.fresh, (⟨k, v, none, none⟩ : Node K V))]) j =
        nodeAt lru.heap j := by
    intro j hj
    rw [nodeAt, hother j hj, nodeAt]
  have hfnode : nodeAt (lru.heap ++ [(lru.fresh, (⟨k, v, none, none⟩ : Node K V))])
      lru.fresh = ⟨k, v, none, none⟩ := by
    simp [nodeAt, hself]
  have hemem : e ∈ lru.head :: (l ++ [e]) ++ [lru.tail] :=
    List.mem_cons_of_mem _ (List.mem_append.mpr (Or.inl
      (List.mem_append.mpr (Or.inr (List.mem_singleton.mpr rfl)))))
  have hef : e ≠ lru.fresh := fun he => hnotchain (he ▸ hemem)
  -- pop the tail of the enlarged state
  obtain ⟨hP, eP, segP, someP, keyP, valP, hpP, tnP⟩ :=
    popTail_WF { lru with heap := lru.heap ++ [(lru.fresh, ⟨k, v, none, none⟩)],
                          fresh := lru.fresh + 1 } l e wfA
  set ke : K := (nodeAt lru.heap e).key with hke
  have hkeyPe : (nodeAt hP e).key = ke := by
    rw [keyP e, hnodeo e hef]
  have hes : (alookup hP e).isSome := by
    rw [someP e]
    exact wfA.alloc e hemem
  obtain ⟨tnode, htn⟩ := Option.isSome_iff_exists.mp hes
  have htnk : tnode.key = ke := by
    rw [show tnode = nodeAt hP e by simp [nodeAt, htn]]
    exact hkeyPe
  -- facts about the evicted key
  have hkee : (ke, e) ∈ lru.cache := wf.idsSub e
    (List.mem_append.mpr (Or.inr (List.mem_singleton.mpr rfl)))
  have hknot : k ∉ lru.cache.map Prod.fst := not_mem_keys_of_lookup_none hk
  have hkke : k ≠ ke := by
    intro hcontra
    exact hknot (List.mem_map.mpr ⟨(ke, e), hkee, hcontra.symm⟩)
  have henl : e ∉ l := by
    have hmid : (l ++ [e]).Nodup :=
      (wf.nodup.of_cons).sublist (List.sublist_append_left _ _)
    exact (List.nodup_cons.mp ((List.perm_append_singleton e l).nodup hmid)).1
  have hmemtrans : ∀ a, a ∈ lru.head :: l ++ [lru.tail] →
      a ∈ lru.head :: (l ++ [e]) ++ [lru.tail] := by
    intro a ha
    rcases List.mem_cons.mp ha with h1 | h2
    · exact h1 ▸ List.mem_cons_self _ _
    rcases List.mem_append.mp h2 with h3 | h4
    · exact List.mem_cons_of_mem _ (List.mem_append.mpr (Or.inl
        (List.mem_append.mpr (Or.inl h3))))
    · exact List.mem_cons_of_mem _ (List.mem_append.mpr (Or.inr h4))
  -- well-formedness after eviction and map delete
  have wf2 : WFon { lru with cache := adelete lru.cache ke,
                             heap := hP,
                             fresh := lru.fresh + 1 } l := by
    refine ⟨?_, ?_, segP, ?_, ?_, ?_, ?_, ?_, ?_, ?_⟩
    · refine wf.nodup.sublist ?_
      show (lru.head :: l ++ [lru.tail]).Sublist
        (lru.head :: (l ++ [e]) ++ [lru.tail])
      have h1 : List.Sublist (l ++ [lru.tail]) ((l ++ [e]) ++ [lru.tail]) := by
        rw [List.append_assoc]
        exact (List.sublist_cons_self e [lru.tail]).append_left l
      exact List.Sublist.cons₂ _ h1
    · intro a ha
      show (alookup hP a).isSome
      rw [someP a]
      exact wfA.alloc a (hmemtrans a ha)
    · show (nodeAt hP lru.head).prev = none
      rw [hpP]
      exact wfA.headPrev
    · show (nodeAt hP lru.tail).next = none
      rw [tnP]
      exact wfA.tailNext
    · show ((adelete lru.cache ke).map Prod.fst).Nodup
      exact wf.mapNodup.sublist ((adelete_sublist _ _).map Prod.fst)
    · intro p hp
      have hp' : p ∈ lru.cache ∧ p.1 ≠ ke := mem_adelete.mp hp
      obtain ⟨hm, hkey⟩ := wf.mapSub p hp'.1
      have hpe : p.2 ≠ e := by
        intro hcontra
        apply hp'.2
        rw [← hkey, hcontra]
      have hpl : p.2 ∈ l := by
        rcases List.mem_append.mp hm with h1 | h2
        · exact h1
        · exact absurd (List.mem_singleton.mp h2) hpe
      refine ⟨hpl, ?_⟩
      show (nodeAt hP p.2).key = p.1
      rw [keyP, hnodeo p.2 (fun he => hnotchain (he ▸ List.mem_cons_of_mem _
        (List.mem_append.mpr (Or.inl (List.mem_append.mpr (Or.inl hpl))))))]
      exact hkey
    · intro a ha
      have hmem := wf.idsSub a (List.mem_append.mpr (Or.inl ha))
      have hane : (nodeAt lru.heap a).key ≠ ke := by
        intro hcontra
        have := keys_nodup_val_inj wf.mapNodup (hcontra ▸ hmem) hkee
        exact henl (this ▸ ha)
      have hkeq : (nodeAt hP a).key = (nodeAt lru.heap a).key := by
        rw [keyP, hnodeo a (fun he => hnotchain (he ▸ List.mem_cons_of_mem _
          (List.mem_append.mpr (Or.inl (List.mem_append.mpr (Or.inl ha))))))]
      show ((nodeAt hP a).key, a) ∈ adelete lru.cache ke
      rw [hkeq]
      exact mem_adelete.mpr ⟨hmem, hane⟩
    · intro j hj
      show alookup hP j = none
      refine eq_none_of_isSome_false ?_
      rw [someP j, wfA.freshBound j hj]
      rfl
    · show (adelete lru.cache ke).length = l.length
      have := adelete_length wf.mapNodup hkee
      have hlen : lru.cache.length = l.length + 1 := by
        rw [wf.sizeEq]
        simp
      omega
  -- the common insertion tail
  have hk2 : alookup (adelete lru.cache ke) k = none := by
    rw [alookup_adelete_ne _ hkke]
    exact hk
  obtain ⟨h', ea, wf', some', key', val'⟩ :=
    Put_add_WF { lru with cache := adelete lru.cache ke,
                          heap := hP,
                          fresh := lru.fresh + 1 } l k v lru.fresh
      wf2 hk2
      (by show (alookup hP lru.fresh).isSome
          rw [someP, hself]
          rfl)
      (by show (nodeAt hP lru.fresh).key = k
          rw [keyP, hfnode])
      (by show (nodeAt hP lru.fresh).value = v
          rw [valP, hfnode])
      (by
        intro hmem
        exact hnotchain (hmemtrans _ hmem))
  refine ⟨h', ?_, wf', ?_, ?_, ?_, ?_⟩
  · simp only [Put, hk, hge, if_true, ite_true, eP, htn, htnk, Option.some_bind,
      Option.bind_eq_bind]
    exact ea
  · rw [key']
    show (nodeAt hP lru.fresh).key = k
    rw [keyP, hfnode]
  · rw [val']
    show (nodeAt hP lru.fresh).value = v
    rw [valP, hfnode]
  · intro j hj
    rw [key' j]
    show (nodeAt hP j).key = (nodeAt lru.heap j).key
    rw [keyP, hnodeo j hj]
  · intro j hj
    rw [val' j]
    show (nodeAt hP j).value = (nodeAt lru.heap j).value
    rw [valP, hnodeo j hj]

/-! ### Reachable states -/

/-- A freshly constructed cache is well-formed with no live nodes. -/
theorem Constructor_WF (cap : Int) : WFon (Constructor cap : LRUCache K V) [] := by
  refine ⟨?_, ?_, ?_, ?_, ?_, ?_, ?_, ?_, ?_, ?_⟩
  · show ((0 : Nat) :: [] ++ [(1 : Nat)]).Nodup
    decide
  · intro a ha
    rcases List.mem_cons.mp ha with h1 | h2
    · subst h1
      rfl
    · have ha1 : a = 1 := by simpa using h2
      subst ha1
      rfl
  · exact ⟨rfl, rfl⟩
  · rfl
  · rfl
  · simp [Constructor]
  · intro p hp
    simp [Constructor] at hp
  · intro a ha
    simp at ha
  · intro j hj
    have hj' : (2 : Nat) ≤ j := hj
    have h0 : ¬ ((0 : Nat) = j) := by omega
    have h1 : ¬ ((1 : Nat) = j) := by omega
    simp [Constructor, alookup, h0, h1]
  · rfl

/-- The reachability invariant: positive capacity, well-formedness, and
the size bound. -/
def Inv (lru : LRUCache K V) : Prop :=
  1 ≤ lru.capacity ∧ ∃ ids, WFon lru ids ∧ (ids.length : Int) ≤ lru.capacity

/-- Every public operation on an invariant state succeeds and preserves
the invariant. -/
theorem Inv_step (lru : LRUCache K V) (op : Op K V) (hInv : Inv lru) :
    ∃ lru', step lru op = some lru' ∧ Inv lru' ∧
      lru'.capacity = lru.capacity := by
  obtain ⟨hcap, ids, wf, hlen⟩ := hInv
  cases op with
  | get k =>
    cases hk : alookup lru.cache k with
    | none =>
      refine ⟨lru, ?_, ⟨hcap, ids, wf, hlen⟩, rfl⟩
      simp [step, Get_miss_spec lru k hk]
    | some i =>
      obtain ⟨l1, l2, h', hids, hget, wf', _, _, _⟩ :=
        Get_hit_spec lru ids k i wf hk
      refine ⟨{ lru with heap := h' }, ?_, ⟨hcap, i :: (l1 ++ l2), wf', ?_⟩, rfl⟩
      · simp [step, hget]
      · subst hids
        simp only [List.length_cons, List.length_append] at hlen ⊢
        omega
  | put k v =>
    cases hk : alookup lru.cache k with
    | some i =>
      obtain ⟨l1, l2, h', hids, hput, wf', _, _, _, _⟩ :=
        Put_hit_spec lru ids k i v wf hk
      refine ⟨{ lru with heap := h' }, ?_, ⟨hcap, i :: (l1 ++ l2), wf', ?_⟩, rfl⟩
      · simp [step, hput]
      · subst hids
        simp only [List.length_cons, List.length_append] at hlen ⊢
        omega
    | none =>
      rcases lt_or_ge (lru.cache.length : Int) lru.capacity with hlt | hge
      · obtain ⟨h', hput, wf', _, _, _, _⟩ :=
          Put_miss_noevict_spec lru ids k v wf hk hlt
        refine ⟨_, hput, ⟨hcap, lru.fresh :: ids, wf', ?_⟩, rfl⟩
        rw [wf.sizeEq] at hlt
        show ((lru.fresh :: ids).length : Int) ≤ lru.capacity
        simp only [List.length_cons]
        push_cast
        omega
      · have hne : ids ≠ [] := by
          intro hnil
          rw [wf.sizeEq, hnil] at hge
          simp at hge
          omega
        obtain ⟨l, e, hids0⟩ := (List.eq_nil_or_concat ids).resolve_left hne
        have hids : ids = l ++ [e] := by simpa using hids0
        subst hids
        obtain ⟨h', hput, wf', _, _, _, _⟩ :=
          Put_miss_evict_spec lru l e k v wf hk hge
        refine ⟨_, hput, ⟨hcap, lru.fresh :: l, wf', ?_⟩, rfl⟩
        show ((lru.fresh :: l).length : Int) ≤ lru.capacity
        simp only [List.length_append, List.length_singleton,
          List.length_cons] at hlen ⊢
        push_cast
        push_cast at hlen
        omega

/-- Sequences of public operations on an invariant state succeed and
preserve the invariant. -/
theorem Inv_run (ops : List (Op K V)) :
    ∀ lru : LRUCache K V, Inv lru →
      ∃ lru', run lru ops = some lru' ∧ Inv lru' ∧
        lru'.capacity = lru.capacity := by
  induction ops with
  | nil =>
    intro lru hInv
    exact ⟨lru, rfl, hInv, rfl⟩
  | cons op rest ih =>
    intro lru hInv
    obtain ⟨lru1, hstep, hInv1, hc1⟩ := Inv_step lru op hInv
    obtain ⟨lru2, hrun, hInv2, hc2⟩ := ih lru1 hInv1
    refine ⟨lru2, ?_, hInv2, hc2.trans hc1⟩
    simp [run, hstep, hrun]

/-- A cache built with positive capacity satisfies the invariant. -/
theorem Constructor_Inv (cap : Int) (hcap : 1 ≤ cap) :
    Inv (Constructor cap : LRUCache K V) := by
  refine ⟨hcap, [], Constructor_WF cap, ?_⟩
  show ((0 : Nat) : Int) ≤ cap
  omega

/-- Every state reached from a constructor call with positive capacity by
a sequence of `Get` and `Put` operations satisfies the invariant. -/
theorem run_Inv (cap : Int) (ops : List (Op K V)) (lru : LRUCache K V)
    (hcap : 1 ≤ cap) (hrun : run (Constructor cap) ops = some lru) :
    Inv lru ∧ lru.capacity = cap := by
  obtain ⟨lru', hrun', hInv, hc⟩ :=
    Inv_run ops (Constructor cap) (Constructor_Inv cap hcap)
  rw [hrun] at hrun'
  cases hrun'
  exact ⟨hInv, hc⟩

/-! ### The claims -/

/-- A concrete reachable state used to instantiate the general theorems:
the result of `Constructor(1)` followed by `Put(5, 7)` over `Nat` keys and
values. -/
def demoState : LRUCache Nat Nat :=
  ⟨1, [(5, 2)], 0, 1,
   [(0, ⟨0, 0, none, some 2⟩), (1, ⟨0, 0, some 2, none⟩),
    (2, ⟨5, 7, some 0, some 1⟩)], 3⟩

/-- C1: for every cache constructed with capacity ≥ 1 and every sequence
of Get and Put operations, every reachable state has as many index entries
as live nodes in the ordering structure, and that size is at most the
(unchanged) capacity. -/
theorem claim_C1 {K V : Type} [DecidableEq K] [Inhabited K] [Inhabited V]
    (cap : Int) (ops : List (Op K V)) (lru : LRUCache K V)
    (hcap : 1 ≤ cap) (hrun : run (Constructor cap) ops = some lru) :
    lru.cache.length = (traversal lru).length ∧
    (lru.cache.length : Int) ≤ lru.capacity ∧
    lru.capacity = cap := by
  obtain ⟨⟨_, ids, wf, hlen⟩, hcapEq⟩ := run_Inv cap ops lru hcap hrun
  refine ⟨?_, ?_, hcapEq⟩
  · rw [traversal_WF lru ids wf, List.length_map, wf.sizeEq]
  · rw [wf.sizeEq]
    exact hlen

theorem claim_C1_witness :
    (1 : Int) ≤ 1 ∧
    ((Constructor 1 : LRUCache Nat Nat).cache.length =
        (traversal (Constructor 1 : LRUCache Nat Nat)).length ∧
      ((Constructor 1 : LRUCache Nat Nat).cache.length : Int) ≤
        (Constructor 1 : LRUCache Nat Nat).capacity ∧
      (Constructor 1 : LRUCache Nat Nat).capacity = 1) :=
  ⟨by decide, claim_C1 1 [] (Constructor 1) (by decide) rfl⟩

/-- C2: in every reachable state the keys listed by a front-to-back
traversal are free of duplicates and form exactly the key set of the
index. -/
theorem claim_C2 {K V : Type} [DecidableEq K] [Inhabited K] [Inhabited V]
    (cap : Int) (ops : List (Op K V)) (lru : LRUCache K V)
    (hcap : 1 ≤ cap) (hrun : run (Constructor cap) ops = some lru) :
    ((traversal lru).map Prod.fst).Nodup ∧
    (∀ k : K, k ∈ (traversal lru).map Prod.fst ↔ (alookup lru.cache k).isSome) := by
  obtain ⟨⟨_, ids, wf, _⟩, _⟩ := run_Inv cap ops lru hcap hrun
  have ht := traversal_WF lru ids wf
  have hcomp : (Prod.fst ∘ fun a =>
      ((nodeAt lru.heap a).key, (nodeAt lru.heap a).value)) =
      fun a => (nodeAt lru.heap a).key := rfl
  constructor
  · rw [ht, List.map_map, hcomp]
    exact WF_keys_nodup lru ids wf
  · intro k
    rw [ht, List.map_map, hcomp]
    constructor
    · intro hk
      obtain ⟨i, hi, hik⟩ := List.mem_map.mp hk
      exact alookup_isSome_of_mem (hik ▸ wf.idsSub i hi)
    · intro hk
      obtain ⟨i, hi⟩ := Option.isSome_iff_exists.mp hk
      obtain ⟨him, hkey⟩ := WF_lookup_facts lru ids k i wf hi
      exact List.mem_map.mpr ⟨i, him, hkey⟩

theorem claim_C2_witness :
    (1 : Int) ≤ 1 ∧
    (((traversal demoState).map Prod.fst).Nodup ∧
      (∀ k : Nat, k ∈ (traversal demoState).map Prod.fst ↔
        (alookup demoState.cache k).isSome)) :=
  ⟨by decide, claim_C2 1 [Op.put 5 7] demoState (by decide) (by decide)⟩

/-- The first key listed by the traversal of a well-formed state is the
key of the front node. -/
theorem head_key_of_WF (lru' : LRUCache K V) (i : Nat) (rest : List Nat)
    (wf' : WFon lru' (i :: rest)) :
    ((traversal lru').map Prod.fst).head? = some ((nodeAt lru'.heap i).key) := by
  rw [traversal_WF lru' (i :: rest) wf']
  simp

/-- No live node (nor sentinel) carries the allocator counter as its
identifier. -/
theorem WF_ids_ne_fresh (lru : LRUCache K V) (ids : List Nat)
    (wf : WFon lru ids) :
    ∀ i ∈ lru.head :: ids ++ [lru.tail], i ≠ lru.fresh := by
  intro i hi he
  have h1 := wf.alloc i hi
  rw [he, wf.freshBound lru.fresh le_rfl] at h1
  simp at h1

/-- C4: immediately after a `Get` hit on `k` and immediately after any
`Put` of `k`, the key `k` heads the front-to-back traversal. -/
theorem claim_C4 {K V : Type} [DecidableEq K] [Inhabited K] [Inhabited V]
    (cap : Int) (ops : List (Op K V)) (lru : LRUCache K V)
    (hcap : 1 ≤ cap) (hrun : run (Constructor cap) ops = some lru) :
    (∀ (k : K) (i : Nat), alookup lru.cache k = some i →
      ∃ (p : V) (lru' : LRUCache K V), Get lru k = some ((p, true), lru') ∧
        ((traversal lru').map Prod.fst).head? = some k) ∧
    (∀ (k : K) (v : V), ∃ lru' : LRUCache K V, Put lru k v = some lru' ∧
      ((traversal lru').map Prod.fst).head? = some k) := by
  obtain ⟨⟨hcap', ids, wf, hlen⟩, _⟩ := run_Inv cap ops lru hcap hrun
  constructor
  · intro k i hk
    obtain ⟨_, hkey⟩ := WF_lookup_facts lru ids k i wf hk
    obtain ⟨l1, l2, h', hids, hget, wf', _, keym, _⟩ :=
      Get_hit_spec lru ids k i wf hk
    refine ⟨_, _, hget, ?_⟩
    rw [head_key_of_WF _ i (l1 ++ l2) wf']
    show some (nodeAt h' i).key = some k
    rw [keym i, hkey]
  · intro k v
    cases hk : alookup lru.cache k with
    | some i =>
      obtain ⟨_, hkey⟩ := WF_lookup_facts lru ids k i wf hk
      obtain ⟨l1, l2, h', hids, hput, wf', _, keym, _, _⟩ :=
        Put_hit_spec lru ids k i v wf hk
      refine ⟨_, hput, ?_⟩
      rw [head_key_of_WF _ i (l1 ++ l2) wf']
      show some (nodeAt h' i).key = some k
      rw [keym i, hkey]
    | none =>
      rcases lt_or_ge (lru.cache.length : Int) lru.capacity with hlt | hge
      · obtain ⟨h', hput, wf', hkf, _, _, _⟩ :=
          Put_miss_noevict_spec lru ids k v wf hk hlt
        refine ⟨_, hput, ?_⟩
        rw [head_key_of_WF _ lru.fresh ids wf']
        show some (nodeAt h' lru.fresh).key = some k
        rw [hkf]
      · have hne : ids ≠ [] := by
          intro hnil
          rw [wf.sizeEq, hnil] at hge
          simp at hge
          omega
        obtain ⟨l, e, hids0⟩ := (List.eq_nil_or_concat ids).resolve_left hne
        have hids : ids = l ++ [e] := by simpa using hids0
        subst hids
        obtain ⟨h', hput, wf', hkf, _, _, _⟩ :=
          Put_miss_evict_spec lru l e k v wf hk hge
        refine ⟨_, hput, ?_⟩
        rw [head_key_of_WF _ lru.fresh l wf']
        show some (nodeAt h' lru.fresh).key = some k
        rw [hkf]

theorem claim_C4_witness :
    (1 : Int) ≤ 1 ∧
    ((∀ (k : Nat) (i : Nat), alookup demoState.cache k = some i →
      ∃ (p : Nat) (lru' : LRUCache Nat Nat),
        Get demoState k = some ((p, true), lru') ∧
        ((traversal lru').map Prod.fst).head? = some k) ∧
    (∀ (k v : Nat), ∃ lru' : LRUCache Nat Nat,
      Put demoState k v = some lru' ∧
      ((traversal lru').map Prod.fst).head? = some k)) :=
  ⟨by decide, claim_C4 1 [Op.put 5 7] demoState (by decide) (by decide)⟩

/-- C5: a `Get` on a present key returns exactly the stored value with
`found = true`, and the stored value of every key is unchanged. -/
theorem claim_C5 {K V : Type} [DecidableEq K] [Inhabited K] [Inhabited V]
    (cap : Int) (ops : List (Op K V)) (lru : LRUCache K V) (k : K) (i : Nat)
    (hcap : 1 ≤ cap) (hrun : run (Constructor cap) ops = some lru)
    (hk : alookup lru.cache k = some i) :
    ∃ lru' : LRUCache K V,
      Get lru k = some (((nodeAt lru.heap i).value, true), lru') ∧
      valueOf lru k = some ((nodeAt lru.heap i).value) ∧
      (∀ k', valueOf lru' k' = valueOf lru k') := by
  obtain ⟨⟨_, ids, wf, _⟩, _⟩ := run_Inv cap ops lru hcap hrun
  obtain ⟨l1, l2, h', hids, hget, wf', _, _, valm⟩ :=
    Get_hit_spec lru ids k i wf hk
  refine ⟨_, hget, ?_, ?_⟩
  · rw [valueOf, hk]
    rfl
  · intro k'
    show (alookup lru.cache k').map (fun j => (nodeAt h' j).value) =
      valueOf lru k'
    rw [valueOf]
    cases alookup lru.cache k' with
    | none => rfl
    | some j => simp [valm j]

theorem claim_C5_witness :
    (1 : Int) ≤ 1 ∧ alookup demoState.cache 5 = some 2 ∧
    (∃ lru' : LRUCache Nat Nat,
      Get demoState 5 = some (((nodeAt demoState.heap 2).value, true), lru') ∧
      valueOf demoState 5 = some ((nodeAt demoState.heap 2).value) ∧
      (∀ k', valueOf lru' k' = valueOf demoState k')) :=
  ⟨by decide, by decide,
    claim_C5 1 [Op.put 5 7] demoState 5 2 (by decide) (by decide) (by decide)⟩

/-- C6: a `Put` on a present key overwrites the stored value, moves the
key to the front of the traversal, and leaves the index (hence the size
and the key set) unchanged. -/
theorem claim_C6 {K V : Type} [DecidableEq K] [Inhabited K] [Inhabited V]
    (cap : Int) (ops : List (Op K V)) (lru : LRUCache K V) (k : K) (i : Nat)
    (v : V)
    (hcap : 1 ≤ cap) (hrun : run (Constructor cap) ops = some lru)
    (hk : alookup lru.cache k = some i) :
    ∃ lru' : LRUCache K V,
      Put lru k v = some lru' ∧
      valueOf lru' k = some v ∧
      ((traversal lru').map Prod.fst).head? = some k ∧
      lru'.cache = lru.cache ∧
      lru'.cache.length = lru.cache.length ∧
      (∀ k' : K, k' ≠ k → valueOf lru' k' = valueOf lru k') := by
  obtain ⟨⟨_, ids, wf, _⟩, _⟩ := run_Inv cap ops lru hcap hrun
  obtain ⟨_, hkey⟩ := WF_lookup_facts lru ids k i wf hk
  obtain ⟨l1, l2, h', hids, hput, wf', _, keym, valm, vali⟩ :=
    Put_hit_spec lru ids k i v wf hk
  refine ⟨_, hput, ?_, ?_, rfl, rfl, ?_⟩
  · show (alookup lru.cache k).map (fun j => (nodeAt h' j).value) = some v
    rw [hk]
    simp [vali]
  · rw [head_key_of_WF _ i (l1 ++ l2) wf']
    show some (nodeAt h' i).key = some k
    rw [keym i, hkey]
  · intro k' hk'
    show (alookup lru.cache k').map (fun j => (nodeAt h' j).value) =
      valueOf lru k'
    rw [valueOf]
    cases hlook : alookup lru.cache k' with
    | none => rfl
    | some j =>
      have hji : j ≠ i := by
        intro he
        subst he
        obtain ⟨_, hkey'⟩ := WF_lookup_facts lru ids k' j wf hlook
        exact hk' (by rw [← hkey', hkey])
      simp [valm j hji]

theorem claim_C6_witness :
    (1 : Int) ≤ 1 ∧ alookup demoState.cache 5 = some 2 ∧
    (∃ lru' : LRUCache Nat Nat,
      Put demoState 5 9 = some lru' ∧
      valueOf lru' 5 = some 9 ∧
      ((traversal lru').map Prod.fst).head? = some 5 ∧
      lru'.cache = demoState.cache ∧
      lru'.cache.length = demoState.cache.length ∧
      (∀ k' : Nat, k' ≠ 5 → valueOf lru' k' = valueOf demoState k')) :=
  ⟨by decide, by decide,
    claim_C6 1 [Op.put 5 7] demoState 5 2 9 (by decide) (by decide) (by decide)⟩

/-- C7: `Get` on an absent key returns the zero value with a `false`
found flag and returns the cache state completely unchanged. -/
theorem claim_C7 {K V : Type} [DecidableEq K] [Inhabited K] [Inhabited V]
    (lru : LRUCache K V) (k : K) (hk : alookup lru.cache k = none) :
    Get lru k = some ((default, false), lru) :=
  Get_miss_spec lru k hk

theorem claim_C7_witness :
    alookup (Constructor 1 : LRUCache Nat Nat).cache 0 = none ∧
    Get (Constructor 1 : LRUCache Nat Nat) 0 =
      some ((default, false), Constructor 1) :=
  ⟨rfl, claim_C7 (Constructor 1) 0 rfl⟩

/-- C10: the constructor performs no capacity validation, and with
capacity ≤ 0 the first `Put` of an absent key enters the eviction branch,
where `popTail` hands the head sentinel (whose `prev` is nil) to
`removeNode`; the nil dereference makes the operation fault (hit the
embedding's `none`) instead of completing. -/
theorem claim_C10 {K V : Type} [DecidableEq K] [Inhabited K] [Inhabited V]
    (cap : Int) (k : K) (v : V) (hcap : cap ≤ 0) :
    Put (Constructor cap : LRUCache K V) k v = none := by
  have hcond : cap ≤ ((([] : List (K × Nat)).length : Nat) : Int) := by
    simpa using hcap
  simp [Put, Constructor, alookup, popTail, removeNode, writeN, hcond]
  intro hcontra
  exact absurd hcontra (by omega)

theorem claim_C10_witness :
    (0 : Int) ≤ 0 ∧ Put (Constructor 0 : LRUCache Nat Nat) 5 7 = none :=
  ⟨by decide, claim_C10 0 5 7 (by decide)⟩

/-- C3: a `Put` of an absent key at full capacity evicts exactly the back
entry of the ordering structure: the traversal afterwards is the new pair
followed by the old traversal minus its last element, the evicted key is
gone from the index and `Get` on it reports not-found, and the new key is
indexed. -/
theorem claim_C3 {K V : Type} [DecidableEq K] [Inhabited K] [Inhabited V]
    (cap : Int) (ops : List (Op K V)) (lru : LRUCache K V) (k : K) (v : V)
    (hcap : 1 ≤ cap) (hrun : run (Constructor cap) ops = some lru)
    (hk : alookup lru.cache k = none)
    (hfull : (lru.cache.length : Int) = lru.capacity) :
    ∃ (ep : K × V) (lru' : LRUCache K V),
      (traversal lru).getLast? = some ep ∧
      Put lru k v = some lru' ∧
      traversal lru' = (k, v) :: (traversal lru).dropLast ∧
      alookup lru'.cache ep.1 = none ∧
      Get lru' ep.1 = some ((default, false), lru') ∧
      (alookup lru'.cache k).isSome ∧
      lru'.cache.length = lru.cache.length := by
  obtain ⟨⟨hcap', ids, wf, hlen⟩, _⟩ := run_Inv cap ops lru hcap hrun
  have hge : lru.capacity ≤ (lru.cache.length : Int) := le_of_eq hfull.symm
  have hne : ids ≠ [] := by
    intro hnil
    rw [wf.sizeEq, hnil] at hge
    simp at hge
    omega
  obtain ⟨l, e, hids0⟩ := (List.eq_nil_or_concat ids).resolve_left hne
  have hids : ids = l ++ [e] := by simpa using hids0
  subst hids
  obtain ⟨h', hput, wf', hkf, hvf, keyo, valo⟩ :=
    Put_miss_evict_spec lru l e k v wf hk hge
  have htrav := traversal_WF lru (l ++ [e]) wf
  have hnef := WF_ids_ne_fresh lru (l ++ [e]) wf
  have hkee : ((nodeAt lru.heap e).key, e) ∈ lru.cache :=
    wf.idsSub e (List.mem_append.mpr (Or.inr (List.mem_singleton.mpr rfl)))
  have hkke : k ≠ (nodeAt lru.heap e).key := by
    intro hcontra
    exact (not_mem_keys_of_lookup_none hk)
      (List.mem_map.mpr ⟨((nodeAt lru.heap e).key, e), hkee, hcontra.symm⟩)
  have hdel : alookup (adelete lru.cache ((nodeAt lru.heap e).key)) k = none := by
    rw [alookup_adelete_ne _ hkke]
    exact hk
  have hinsert : ainsert (adelete lru.cache ((nodeAt lru.heap e).key)) k lru.fresh =
      adelete lru.cache ((nodeAt lru.heap e).key) ++ [(k, lru.fresh)] :=
    ainsert_of_none hdel _
  have hlookupE : alookup (ainsert (adelete lru.cache ((nodeAt lru.heap e).key))
      k lru.fresh) ((nodeAt lru.heap e).key) = none := by
    rw [hinsert, alookup_append_of_none _ (alookup_adelete_self _ _)]
    simp [alookup, hkke]
  refine ⟨((nodeAt lru.heap e).key, (nodeAt lru.heap e).value), _, ?_, hput,
    ?_, hlookupE, ?_, ?_, ?_⟩
  · rw [htrav, List.map_append]
    simp [List.getLast?_concat]
  · have htrav' := traversal_WF _ (lru.fresh :: l) wf'
    rw [htrav', htrav, List.map_append, List.map_cons, List.map_singleton,
      List.dropLast_concat]
    congr 1
    · rw [hkf, hvf]
    · refine List.map_congr_left ?_
      intro a ha
      have hanef : a ≠ lru.fresh := hnef a (List.mem_cons_of_mem _
        (List.mem_append.mpr (Or.inl (List.mem_append.mpr (Or.inl ha)))))
      rw [keyo a hanef, valo a hanef]
  · exact Get_miss_spec _ _ hlookupE
  · show (alookup (ainsert (adelete lru.cache ((nodeAt lru.heap e).key))
      k lru.fresh) k).isSome
    rw [hinsert, alookup_append_of_none _ hdel]
    simp [alookup]
  · show (ainsert (adelete lru.cache ((nodeAt lru.heap e).key))
      k lru.fresh).length = lru.cache.length
    rw [hinsert, List.length_append]
    have := adelete_length wf.mapNodup hkee
    simp only [List.length_singleton]
    omega

theorem claim_C3_witness :
    (1 : Int) ≤ 1 ∧ alookup demoState.cache 8 = none ∧
    ((demoState.cache.length : Int) = demoState.capacity) ∧
    (∃ (ep : Nat × Nat) (lru' : LRUCache Nat Nat),
      (traversal demoState).getLast? = some ep ∧
      Put demoState 8 9 = some lru' ∧
      traversal lru' = (8, 9) :: (traversal demoState).dropLast ∧
      alookup lru'.cache ep.1 = none ∧
      Get lru' ep.1 = some ((default, false), lru') ∧
      (alookup lru'.cache 8).isSome ∧
      lru'.cache.length = demoState.cache.length) :=
  ⟨by decide, by decide, by decide,
    claim_C3 1 [Op.put 5 7] demoState 8 9 (by decide) (by decide)
      (by decide) (by decide)⟩

/-- C8: two consecutive `Get` calls on a present key return the same
value and found flag, and the second call leaves the index, the ordering
and all stored values exactly as they were after the first call. -/
theorem claim_C8 {K V : Type} [DecidableEq K] [Inhabited K] [Inhabited V]
    (cap : Int) (ops : List (Op K V)) (lru : LRUCache K V) (k : K) (i : Nat)
    (hcap : 1 ≤ cap) (hrun : run (Constructor cap) ops = some lru)
    (hk : alookup lru.cache k = some i) :
    ∃ (vr : V) (lru1 lru2 : LRUCache K V),
      Get lru k = some ((vr, true), lru1) ∧
      Get lru1 k = some ((vr, true), lru2) ∧
      traversal lru2 = traversal lru1 ∧
      lru2.cache = lru1.cache ∧
      (∀ k', valueOf lru2 k' = valueOf lru1 k') := by
  obtain ⟨⟨_, ids, wf, _⟩, _⟩ := run_Inv cap ops lru hcap hrun
  obtain ⟨l1, l2, h1, hids, hget1, wf1, som1, key1, val1⟩ :=
    Get_hit_spec lru ids k i wf hk
  have hk1 : alookup ({ lru with heap := h1 } : LRUCache K V).cache k = some i :=
    hk
  obtain ⟨l1', l2', h2, hids', hget2, wf2, som2, key2, val2⟩ :=
    Get_hit_spec { lru with heap := h1 } (i :: (l1 ++ l2)) k i wf1 hk1
  -- the rotated chain already has `i` at the front, so the split is trivial
  have hin : i ∉ l1 ++ l2 := by
    have hmid : (i :: (l1 ++ l2)).Nodup :=
      (wf1.nodup.of_cons).sublist (List.sublist_append_left _ _)
    exact (List.nodup_cons.mp hmid).1
  have hsplit : l1' = [] ∧ l2' = l1 ++ l2 := by
    cases l1' with
    | nil =>
      simp only [List.nil_append] at hids'
      exact ⟨rfl, ((List.cons_eq_cons.mp hids').2).symm⟩
    | cons a t =>
      exfalso
      simp only [List.cons_append] at hids'
      have hia : i = a := (List.cons_eq_cons.mp hids').1
      have htail : l1 ++ l2 = t ++ i :: l2' := (List.cons_eq_cons.mp hids').2
      apply hin
      rw [htail]
      exact List.mem_append.mpr (Or.inr (List.mem_cons_self _ _))
  obtain ⟨he1, he2⟩ := hsplit
  subst he1
  subst he2
  have hvals : (nodeAt h1 i).value = (nodeAt lru.heap i).value := val1 i
  rw [hvals] at hget2
  refine ⟨(nodeAt lru.heap i).value, _, _, hget1, hget2, ?_, rfl, ?_⟩
  · rw [traversal_WF _ (i :: ([] ++ (l1 ++ l2))) wf2,
      traversal_WF _ (i :: (l1 ++ l2)) wf1]
    simp only [List.nil_append]
    refine List.map_congr_left ?_
    intro a _
    rw [key2 a, val2 a]
  · intro k'
    show (alookup lru.cache k').map (fun j => (nodeAt h2 j).value) =
      (alookup lru.cache k').map (fun j => (nodeAt h1 j).value)
    cases alookup lru.cache k' with
    | none => rfl
    | some j => simp [val2 j]

theorem claim_C8_witness :
    (1 : Int) ≤ 1 ∧ alookup demoState.cache 5 = some 2 ∧
    (∃ (vr : Nat) (lru1 lru2 : LRUCache Nat Nat),
      Get demoState 5 = some ((vr, true), lru1) ∧
      Get lru1 5 = some ((vr, true), lru2) ∧
      traversal lru2 = traversal lru1 ∧
      lru2.cache = lru1.cache ∧
      (∀ k', valueOf lru2 k' = valueOf lru1 k')) :=
  ⟨by decide, by decide,
    claim_C8 1 [Op.put 5 7] demoState 5 2 (by decide) (by decide) (by decide)⟩

/-- C9: on every reachable state with capacity ≥ 1, `Get` and `Put` are
total (no nil dereference on any branch), and whenever the eviction
condition of `Put` holds the ordering structure is nonempty and `popTail`
detaches a live entry, never the head sentinel. -/
theorem claim_C9 {K V : Type} [DecidableEq K] [Inhabited K] [Inhabited V]
    (cap : Int) (ops : List (Op K V)) (lru : LRUCache K V)
    (hcap : 1 ≤ cap) (hrun : run (Constructor cap) ops = some lru) :
    (∀ k : K, (Get lru k).isSome) ∧
    (∀ (k : K) (v : V), (Put lru k v).isSome) ∧
    (lru.capacity ≤ (lru.cache.length : Int) →
      ∃ (lp : LRUCache K V) (j : Nat), popTail lru = some (lp, j) ∧
        j ≠ lru.head ∧
        alookup lru.cache ((nodeAt lru.heap j).key) = some j ∧
        traversal lru ≠ []) := by
  obtain ⟨hInv, _⟩ := run_Inv cap ops lru hcap hrun
  obtain ⟨hcap', ids, wf, hlen⟩ := hInv
  refine ⟨?_, ?_, ?_⟩
  · intro k
    obtain ⟨lru', hstep, _⟩ := Inv_step lru (Op.get k) ⟨hcap', ids, wf, hlen⟩
    have hmap : ((Get lru k).map Prod.snd).isSome := by
      rw [show (Get lru k).map Prod.snd = step lru (Op.get k) from rfl, hstep]
      rfl
    simpa using hmap
  · intro k v
    obtain ⟨lru', hstep, _⟩ := Inv_step lru (Op.put k v) ⟨hcap', ids, wf, hlen⟩
    rw [show Put lru k v = step lru (Op.put k v) from rfl, hstep]
    rfl
  · intro hge
    have hne : ids ≠ [] := by
      intro hnil
      rw [wf.sizeEq, hnil] at hge
      simp at hge
      omega
    obtain ⟨l, e, hids0⟩ := (List.eq_nil_or_concat ids).resolve_left hne
    have hids : ids = l ++ [e] := by simpa using hids0
    subst hids
    obtain ⟨h', epop, _, _, _, _, _, _⟩ := popTail_WF lru l e wf
    obtain ⟨hhd, _, _⟩ := chain_facts wf.nodup
    refine ⟨_, e, epop, ?_, ?_, ?_⟩
    · intro he
      subst he
      exact hhd (List.mem_append.mpr (Or.inr (List.mem_singleton.mpr rfl)))
    · exact alookup_eq_some_of_mem_nodup wf.mapNodup
        (wf.idsSub e (List.mem_append.mpr (Or.inr (List.mem_singleton.mpr rfl))))
    · rw [traversal_WF lru (l ++ [e]) wf]
      simp

theorem claim_C9_witness :
    (1 : Int) ≤ 1 ∧
    ((∀ k : Nat, (Get demoState k).isSome) ∧
    (∀ (k v : Nat), (Put demoState k v).isSome) ∧
    (demoState.capacity ≤ (demoState.cache.length : Int) →
      ∃ (lp : LRUCache Nat Nat) (j : Nat), popTail demoState = some (lp, j) ∧
        j ≠ demoState.head ∧
        alookup demoState.cache ((nodeAt demoState.heap j).key) = some j ∧
        traversal demoState ≠ [])) :=
  ⟨by decide, claim_C9 1 [Op.put 5 7] demoState (by decide) (by decide)⟩

end LRUGo
